import Mathlib

set_option maxHeartbeats 1000000

/-!
Verification development for the RSU range field-testing repository.

`Monitor` embeds the live capture loop of `Raw/monitor.py`: the debounced
presence-detection state machine driven by byte-size deltas of a remote
receive buffer, with GPS fixes and speed estimation.  `GeoMath` embeds the
haversine distance functions over the reals (idealised real arithmetic in
place of IEEE floats).  `Analyze` embeds the offline pipeline of
`Processed/analyze_loop.py`: timestamp repair, NaN-propagating distance
features with nearest-reference assignment, binned range profiles, and the
retrying elevation resolver.
-/

namespace Monitor

/-- Bytes per packet (approx); `PACKET_SIZE_BYTES = 98` in `Raw/monitor.py`. -/
def PACKET_SIZE_BYTES : Nat := 98

/-- Seconds between checks; `POLL_INTERVAL_SEC = 1`. -/
def POLL_INTERVAL_SEC : Nat := 1

/-- ENTRY debounce threshold in ticks; `ENTRY_SECONDS = 3`. -/
def ENTRY_SECONDS : Nat := 3

/-- EXIT debounce threshold in ticks; `EXIT_SECONDS = 4`. -/
def EXIT_SECONDS : Nat := 4

/-- Smoothing window length in ticks; `PPS_WINDOW_SEC = 4`. -/
def PPS_WINDOW_SEC : Nat := 4

/-- m/s to mph conversion factor; `MPH_FACTOR = 2.23693629` (exact decimal). -/
def MPH_FACTOR : ℚ := 223693629 / 100000000

/-- Coverage event type: `event_type` is `"ENTRY"` or `"EXIT"`. -/
inductive Ev where
  | ENTRY : Ev
  | EXIT : Ev
deriving DecidableEq

/-- Mutable state of the monitoring loop in `main()`:
`state` (INSIDE is `inside = true`, OUTSIDE is `false`), the two debounce
counters, the sliding window `delta_history`, `prev_size`, and the last known
GPS fix (`last_gps_lat`/`last_gps_lon` are set and cleared together, and
`last_gps_time` is non-`None` exactly when they are, so they are modelled as
one optional pair). -/
structure LoopState where
  inside : Bool
  entryCounter : Nat
  exitCounter : Nat
  deltaHistory : List Nat
  prevSize : Nat
  lastGps : Option (ℚ × ℚ)
deriving DecidableEq

/-- Initial loop state: `state = "OUTSIDE"`, both counters 0, empty window,
no last GPS fix; `prev_size` comes from the initial remote size read. -/
def initState (prevSize : Nat) : LoopState :=
  { inside := false, entryCounter := 0, exitCounter := 0,
    deltaHistory := [], prevSize := prevSize, lastGps := none }

/-- What one tick of the loop body emits: the metrics row fields
(`delta_bytes`, window total, `pps`, `pdr`, latitude/longitude, speed
source), the event recorded this tick if any, the GPS fix captured for the
event row, and the values of the two debounce counters right after step 4
(before any transition resets them).  The emitted `speed_mph` value is real
valued (haversine); the pair of fixes it is computed from is recorded in
`speedFrom` and the numeric value is recovered by `tickSpeedMph` below. -/
structure TickOut where
  delta : Nat
  windowBytes : Nat
  pps : ℚ
  pdr : ℚ
  lat : Option ℚ
  lon : Option ℚ
  speedFrom : Option ((ℚ × ℚ) × (ℚ × ℚ))
  event : Option Ev
  eventFix : Option (ℚ × ℚ)
  entryCtr : Nat
  exitCtr : Nat
deriving DecidableEq

/-- `delta_history.append(delta)` followed by `pop(0)` when the window
exceeds `PPS_WINDOW_SEC` entries. -/
def pushDelta (hist : List Nat) (d : Nat) : List Nat :=
  if PPS_WINDOW_SEC < (hist ++ [d]).length then (hist ++ [d]).tail else hist ++ [d]

/-- Smoothed packets-per-second over the window:
`(window_bytes / PACKET_SIZE_BYTES) / (len(delta_history) * POLL_INTERVAL_SEC)`,
guarded exactly as in the source. -/
def ppsOf (hist : List Nat) : ℚ :=
  if 0 < PACKET_SIZE_BYTES ∧ 0 < hist.length then
    ((hist.sum : ℚ) / (PACKET_SIZE_BYTES : ℚ)) /
      ((hist.length : ℚ) * (POLL_INTERVAL_SEC : ℚ))
  else 0

/-- The ENTRY/EXIT transition logic at the end of a tick, applied to the
state flag and the already-updated debounce counters: OUTSIDE→INSIDE when
`entry_counter >= ENTRY_SECONDS` (then `entry_counter = 0`), else
INSIDE→OUTSIDE when `exit_counter >= EXIT_SECONDS` (then `exit_counter = 0`).
Returns (new inside flag, new entry counter, new exit counter, event). -/
def transition (inside : Bool) (ec xc : Nat) : Bool × Nat × Nat × Option Ev :=
  if inside = false ∧ ENTRY_SECONDS ≤ ec then (true, 0, xc, some Ev.ENTRY)
  else if inside = true ∧ EXIT_SECONDS ≤ xc then (false, ec, 0, some Ev.EXIT)
  else (inside, ec, xc, none)

/-- One iteration of the `while True` loop body after the size read has
already been turned into a byte delta: window update, smoothed `pps`, `pdr`,
GPS + speed bookkeeping, debounce counters, and the transition.  `fix` is the
result of `read_gps_from_kinematics` for the metrics row, `fixE` the fresh
GPS read taken at the moment an event fires. -/
def detTick (s : LoopState) (delta : Nat) (fix fixE : Option (ℚ × ℚ)) :
    LoopState × TickOut :=
  let hist := pushDelta s.deltaHistory delta
  let ec := if 0 < ppsOf hist then s.entryCounter + 1 else 0
  let xc := if 0 < ppsOf hist then 0 else s.exitCounter + 1
  let tr := transition s.inside ec xc
  ({ inside := tr.1, entryCounter := tr.2.1, exitCounter := tr.2.2.1,
     deltaHistory := hist, prevSize := s.prevSize,
     lastGps := match fix with
       | some c => some c
       | none => s.lastGps },
   { delta := delta, windowBytes := hist.sum, pps := ppsOf hist,
     pdr := if 0 < hist.sum then 1 else 0,
     lat := fix.map Prod.fst, lon := fix.map Prod.snd,
     speedFrom := match fix, s.lastGps with
       | some c, some p =>
          if (0 : ℚ) < (POLL_INTERVAL_SEC : ℚ) then some (p, c) else none
       | _, _ => none,
     event := tr.2.2.2,
     eventFix := match tr.2.2.2 with
       | some _ => fixE
       | none => none,
     entryCtr := ec, exitCtr := xc })

/-- Per-tick inputs of the detector once the size read has been reduced to a
byte delta. -/
structure TickIn where
  delta : Nat
  fix : Option (ℚ × ℚ)
  fixE : Option (ℚ × ℚ)
deriving DecidableEq

/-- Run the detector over a stream of per-tick inputs, collecting the
per-tick outputs in order. -/
def runDet (s : LoopState) : List TickIn → LoopState × List TickOut
  | [] => (s, [])
  | t :: ts =>
      let p := detTick s t.delta t.fix t.fixE
      let q := runDet p.1 ts
      (q.1, p.2 :: q.2)

/-- The three possible outcomes of `sftp.stat(path)` as seen by
`get_remote_file_size`: a successful stat with a size, a
`FileNotFoundError`, or a connection-level error
(`IOError`/`SSHException`/`EOFError`). -/
inductive SftpRead where
  | found : Nat → SftpRead
  | fileNotFound : SftpRead
  | connLost : SftpRead
deriving DecidableEq

/-- `get_remote_file_size`: size on success, `0` when the file does not
exist yet, `None` when the connection died. -/
def getRemoteFileSize : SftpRead → Option Nat
  | SftpRead.found n => some n
  | SftpRead.fileNotFound => some 0
  | SftpRead.connLost => none

/-- Per-tick inputs of the full loop: the remote size read outcome and the
two GPS reads. -/
structure LoopIn where
  read : SftpRead
  fix : Option (ℚ × ℚ)
  fixE : Option (ℚ × ℚ)
deriving DecidableEq

/-- The full live loop: per tick, read the remote size (`break` on `None`),
compute `delta_bytes = max(0, size - prev_size)` (natural subtraction),
update `prev_size`, then run the detector body.  Returns the final state and
the outputs of the processed ticks in order; on a lost connection the
remaining inputs are discarded, mirroring the `break`. -/
def runLoop (s : LoopState) : List LoopIn → LoopState × List TickOut
  | [] => (s, [])
  | t :: ts =>
      match getRemoteFileSize t.read with
      | none => (s, [])
      | some size =>
          let p := detTick { s with prevSize := size } (size - s.prevSize) t.fix t.fixE
          let q := runLoop p.1 ts
          (q.1, p.2 :: q.2)

/-- The event emitted at tick `i` of an output trace (`none` when no event
fired or `i` is out of range). -/
def eventAt (outs : List TickOut) (i : Nat) : Option Ev :=
  (outs[i]?).bind (fun o => o.event)

/-- The post-debounce exit counter at tick `i` of an output trace. -/
def exitCtrAt (outs : List TickOut) (i : Nat) : Option Nat :=
  (outs[i]?).map (fun o => o.exitCtr)

/-- The speed source (pair of GPS fixes) at tick `i` of an output trace. -/
def speedFromAt (outs : List TickOut) (i : Nat) : Option ((ℚ × ℚ) × (ℚ × ℚ)) :=
  (outs[i]?).bind (fun o => o.speedFrom)

end Monitor

namespace GeoMath

/-- `math.radians` / `np.radians`: degrees to radians. -/
noncomputable def radians (d : ℝ) : ℝ := d * Real.pi / 180

/-- `math.atan2` / `np.arctan2` over the reals (standard case analysis). -/
noncomputable def atan2 (y x : ℝ) : ℝ :=
  if 0 < x then Real.arctan (y / x)
  else if x < 0 ∧ 0 ≤ y then Real.arctan (y / x) + Real.pi
  else if x < 0 ∧ y < 0 then Real.arctan (y / x) - Real.pi
  else if x = 0 ∧ 0 < y then Real.pi / 2
  else if x = 0 ∧ y < 0 then -(Real.pi / 2)
  else 0

/-- Scalar haversine distance in meters, `haversine_m` in `Raw/monitor.py`
(spherical Earth, mean radius 6,371,000 m), over idealised real
arithmetic. -/
noncomputable def haversine_m (lat1 lon1 lat2 lon2 : ℝ) : ℝ :=
  let R : ℝ := 6371000
  let phi1 := radians lat1
  let phi2 := radians lat2
  let dphi := radians (lat2 - lat1)
  let dlambda := radians (lon2 - lon1)
  let a := Real.sin (dphi / 2) ^ 2 +
    Real.cos phi1 * Real.cos phi2 * Real.sin (dlambda / 2) ^ 2
  let c := 2 * atan2 (Real.sqrt a) (Real.sqrt (1 - a))
  R * c

/-- Vectorized haversine `haversine_m_np` in `Processed/analyze_loop.py`,
written pointwise: the latitudes/longitudes are converted to radians first
and the differences are taken in radians. -/
noncomputable def haversine_m_np (lat1 lon1 lat2 lon2 : ℝ) : ℝ :=
  let R : ℝ := 6371000
  let lat1r := radians lat1
  let lon1r := radians lon1
  let lat2r := radians lat2
  let lon2r := radians lon2
  let dlat := lat2r - lat1r
  let dlon := lon2r - lon1r
  let a := Real.sin (dlat / 2) ^ 2 +
    Real.cos lat1r * Real.cos lat2r * Real.sin (dlon / 2) ^ 2
  let c := 2 * atan2 (Real.sqrt a) (Real.sqrt (1 - a))
  R * c

theorem atan2_zero_one : atan2 0 1 = 0 := by
  unfold atan2
  rw [if_pos one_pos]
  simp [Real.arctan_zero]

theorem haversine_m_self (lat lon : ℝ) : haversine_m lat lon lat lon = 0 := by
  unfold haversine_m radians
  simp [atan2_zero_one]

theorem haversine_m_np_self (lat lon : ℝ) : haversine_m_np lat lon lat lon = 0 := by
  unfold haversine_m_np
  simp [atan2_zero_one]

theorem haversine_m_symm (lat1 lon1 lat2 lon2 : ℝ) :
    haversine_m lat1 lon1 lat2 lon2 = haversine_m lat2 lon2 lat1 lon1 := by
  unfold haversine_m
  have hlat : radians (lat1 - lat2) = -(radians (lat2 - lat1)) := by
    unfold radians; ring
  have hlon : radians (lon1 - lon2) = -(radians (lon2 - lon1)) := by
    unfold radians; ring
  simp only
  rw [hlat, hlon, neg_div, Real.sin_neg, neg_div, Real.sin_neg]
  ring_nf

theorem haversine_m_np_symm (lat1 lon1 lat2 lon2 : ℝ) :
    haversine_m_np lat1 lon1 lat2 lon2 = haversine_m_np lat2 lon2 lat1 lon1 := by
  unfold haversine_m_np
  simp only
  rw [show radians lat1 - radians lat2 = -(radians lat2 - radians lat1) by ring,
    show radians lon1 - radians lon2 = -(radians lon2 - radians lon1) by ring,
    neg_div, Real.sin_neg, neg_div, Real.sin_neg]
  ring_nf

end GeoMath

namespace Monitor

/-- The numeric `speed_mph` value emitted with a tick's metrics row:
the haversine distance between the retained fix and the current fix, divided
by the assumed tick interval `POLL_INTERVAL_SEC`, converted to mph. -/
noncomputable def tickSpeedMph (o : TickOut) : Option ℝ :=
  o.speedFrom.map (fun pc =>
    GeoMath.haversine_m pc.1.1 pc.1.2 pc.2.1 pc.2.2 /
      (POLL_INTERVAL_SEC : ℝ) * (MPH_FACTOR : ℝ))

end Monitor

namespace Monitor

/-- Number of trailing zero entries of a window. -/
def trailZeros : List Nat → Nat
  | [] => 0
  | x :: xs => if trailZeros xs = xs.length ∧ x = 0 then trailZeros xs + 1 else trailZeros xs

theorem trailZeros_le_length (w : List Nat) : trailZeros w ≤ w.length := by
  induction w with
  | nil => simp [trailZeros]
  | cons x xs ih =>
      simp only [trailZeros, List.length_cons]
      split <;> omega

theorem trailZeros_eq_length_iff (w : List Nat) : trailZeros w = w.length ↔ w.sum = 0 := by
  induction w with
  | nil => simp [trailZeros]
  | cons x xs ih =>
      simp only [trailZeros, List.length_cons, List.sum_cons]
      by_cases hc : trailZeros xs = xs.length ∧ x = 0
      · rw [if_pos hc]
        have h1 : xs.sum = 0 := ih.mp hc.1
        omega
      · rw [if_neg hc]
        have h1 := trailZeros_le_length xs
        constructor
        · intro h; omega
        · intro h
          have hx : x = 0 := by omega
          have hs : xs.sum = 0 := by omega
          exact absurd ⟨ih.mpr hs, hx⟩ hc

theorem trailZeros_cons_of_sum_ne (x : Nat) (xs : List Nat)
    (h : (x :: xs).sum ≠ 0) : trailZeros (x :: xs) = trailZeros xs := by
  simp only [trailZeros]
  rw [if_neg]
  intro hc
  have hs : xs.sum = 0 := (trailZeros_eq_length_iff xs).mp hc.1
  simp only [List.sum_cons, hc.2, hs] at h
  omega

theorem trailZeros_cons (x : Nat) (xs : List Nat) :
    trailZeros (x :: xs) =
      if trailZeros xs = xs.length ∧ x = 0 then trailZeros xs + 1 else trailZeros xs := rfl

theorem trailZeros_append_zero (w : List Nat) :
    trailZeros (w ++ [0]) = trailZeros w + 1 := by
  induction w with
  | nil => simp [trailZeros]
  | cons x xs ih =>
      have hca : (x :: xs) ++ [0] = x :: (xs ++ [0]) := rfl
      have hl : (xs ++ [0]).length = xs.length + 1 := by simp
      rw [hca, trailZeros_cons, trailZeros_cons, ih, hl]
      by_cases hc : trailZeros xs = xs.length ∧ x = 0
      · rw [if_pos ⟨by omega, hc.2⟩, if_pos hc]
      · rw [if_neg (fun hc2 => hc ⟨by omega, hc2.2⟩), if_neg hc]

theorem trailZeros_lt_of_sum_ne (w : List Nat) (h : w.sum ≠ 0) :
    trailZeros w < w.length := by
  have h1 := trailZeros_le_length w
  have h2 : trailZeros w ≠ w.length := fun he => h ((trailZeros_eq_length_iff w).mp he)
  omega

theorem tail_sum_le (l : List Nat) : l.tail.sum ≤ l.sum := by
  cases l with
  | nil => simp
  | cons a as => simp [List.tail_cons]

theorem length_pushDelta_le (w : List Nat) (d : Nat) (h : w.length ≤ PPS_WINDOW_SEC) :
    (pushDelta w d).length ≤ PPS_WINDOW_SEC := by
  have hl : (w ++ [d]).length = w.length + 1 := by simp
  unfold pushDelta
  split
  · next hg =>
      rw [List.length_tail, hl]
      omega
  · next hg =>
      rw [hl] at hg ⊢
      omega

theorem sum_pushDelta_zero (w : List Nat) (h : w.sum = 0) : (pushDelta w 0).sum = 0 := by
  have hsum : (w ++ [0]).sum = 0 := by simp [h]
  unfold pushDelta
  split
  · have := tail_sum_le (w ++ [0])
    omega
  · exact hsum

theorem trailZeros_pushDelta_zero (w : List Nat) (h : (pushDelta w 0).sum ≠ 0) :
    trailZeros (pushDelta w 0) = trailZeros w + 1 := by
  unfold pushDelta at h ⊢
  by_cases hg : PPS_WINDOW_SEC < (w ++ [0]).length
  · rw [if_pos hg] at h ⊢
    cases w with
    | nil => simp [PPS_WINDOW_SEC] at hg
    | cons y ys =>
        simp only [List.cons_append, List.tail_cons] at h ⊢
        rw [trailZeros_append_zero]
        have hsum : (y :: ys).sum ≠ 0 := by
          intro h0
          apply h
          have hy : ys.sum = 0 := by simp only [List.sum_cons] at h0; omega
          simp [hy]
        rw [trailZeros_cons_of_sum_ne y ys hsum]
  · rw [if_neg hg] at h ⊢
    exact trailZeros_append_zero w

theorem ppsOf_pos_iff (hist : List Nat) : 0 < ppsOf hist ↔ 0 < hist.sum := by
  unfold ppsOf
  by_cases h : 0 < PACKET_SIZE_BYTES ∧ 0 < hist.length
  · rw [if_pos h]
    constructor
    · intro hp
      by_contra hs
      have h0 : hist.sum = 0 := by omega
      rw [h0] at hp
      norm_num at hp
    · intro hs
      apply div_pos
      · apply div_pos
        · exact_mod_cast hs
        · norm_num [PACKET_SIZE_BYTES]
      · have h1 : (0 : ℚ) < (hist.length : ℚ) := by exact_mod_cast h.2
        have h2 : (0 : ℚ) < (POLL_INTERVAL_SEC : ℚ) := by norm_num [POLL_INTERVAL_SEC]
        exact mul_pos h1 h2
  · rw [if_neg h]
    have hl : hist.length = 0 := by
      rcases not_and_or.mp h with h1 | h2
      · exact absurd (by norm_num [PACKET_SIZE_BYTES]) h1
      · omega
    have he : hist = [] := List.length_eq_zero.mp hl
    subst he
    simp

theorem transition_inside_nofire (ec xc : Nat) (hx : xc < EXIT_SECONDS) :
    transition true ec xc = (true, ec, xc, none) := by
  have h1 : ¬ ((true : Bool) = false ∧ ENTRY_SECONDS ≤ ec) := fun h => Bool.noConfusion h.1
  have h2 : ¬ ((true : Bool) = true ∧ EXIT_SECONDS ≤ xc) := fun h => absurd h.2 (by omega)
  unfold transition
  rw [if_neg h1, if_neg h2]

theorem transition_inside_fire (ec xc : Nat) (hx : EXIT_SECONDS ≤ xc) :
    transition true ec xc = (false, ec, 0, some Ev.EXIT) := by
  have h1 : ¬ ((true : Bool) = false ∧ ENTRY_SECONDS ≤ ec) := fun h => Bool.noConfusion h.1
  unfold transition
  rw [if_neg h1, if_pos ⟨rfl, hx⟩]

theorem transition_outside_nofire (ec xc : Nat) (he : ec < ENTRY_SECONDS) :
    transition false ec xc = (false, ec, xc, none) := by
  have h1 : ¬ ((false : Bool) = false ∧ ENTRY_SECONDS ≤ ec) := fun h => absurd h.2 (by omega)
  have h2 : ¬ ((false : Bool) = true ∧ EXIT_SECONDS ≤ xc) := fun h => Bool.noConfusion h.1
  unfold transition
  rw [if_neg h1, if_neg h2]

theorem detTick_quiet_inside (s : LoopState) (delta : Nat) (fix fixE : Option (ℚ × ℚ))
    (hin : s.inside = true)
    (hpps : ¬ 0 < ppsOf (pushDelta s.deltaHistory delta))
    (hx : s.exitCounter + 1 < EXIT_SECONDS) :
    (detTick s delta fix fixE).1.inside = true ∧
    (detTick s delta fix fixE).1.exitCounter = s.exitCounter + 1 ∧
    (detTick s delta fix fixE).1.deltaHistory = pushDelta s.deltaHistory delta ∧
    (detTick s delta fix fixE).2.event = none ∧
    (detTick s delta fix fixE).2.exitCtr = s.exitCounter + 1 := by
  simp only [detTick]
  rw [if_neg hpps, if_neg hpps, hin, transition_inside_nofire _ _ hx]
  refine ⟨?_, ?_, ?_, ?_, ?_⟩ <;> trivial

theorem detTick_quiet_inside_fire (s : LoopState) (delta : Nat) (fix fixE : Option (ℚ × ℚ))
    (hin : s.inside = true)
    (hpps : ¬ 0 < ppsOf (pushDelta s.deltaHistory delta))
    (hx : EXIT_SECONDS ≤ s.exitCounter + 1) :
    (detTick s delta fix fixE).1.inside = false ∧
    (detTick s delta fix fixE).1.exitCounter = 0 ∧
    (detTick s delta fix fixE).1.deltaHistory = pushDelta s.deltaHistory delta ∧
    (detTick s delta fix fixE).2.event = some Ev.EXIT ∧
    (detTick s delta fix fixE).2.exitCtr = s.exitCounter + 1 := by
  simp only [detTick]
  rw [if_neg hpps, if_neg hpps, hin, transition_inside_fire _ _ hx]
  refine ⟨?_, ?_, ?_, ?_, ?_⟩ <;> trivial

theorem detTick_quiet_outside (s : LoopState) (delta : Nat) (fix fixE : Option (ℚ × ℚ))
    (hin : s.inside = false)
    (hpps : ¬ 0 < ppsOf (pushDelta s.deltaHistory delta)) :
    (detTick s delta fix fixE).1.inside = false ∧
    (detTick s delta fix fixE).1.deltaHistory = pushDelta s.deltaHistory delta ∧
    (detTick s delta fix fixE).2.event = none := by
  simp only [detTick]
  rw [if_neg hpps, if_neg hpps, hin,
    transition_outside_nofire _ _ (by decide : (0 : Nat) < ENTRY_SECONDS)]
  refine ⟨?_, ?_, ?_⟩ <;> trivial

theorem detTick_active_inside (s : LoopState) (delta : Nat) (fix fixE : Option (ℚ × ℚ))
    (hin : s.inside = true)
    (hpps : 0 < ppsOf (pushDelta s.deltaHistory delta)) :
    (detTick s delta fix fixE).1.inside = true ∧
    (detTick s delta fix fixE).1.exitCounter = 0 ∧
    (detTick s delta fix fixE).1.deltaHistory = pushDelta s.deltaHistory delta ∧
    (detTick s delta fix fixE).2.event = none ∧
    (detTick s delta fix fixE).2.exitCtr = 0 := by
  simp only [detTick]
  rw [if_pos hpps, if_pos hpps, hin,
    transition_inside_nofire _ _ (by decide : (0 : Nat) < EXIT_SECONDS)]
  refine ⟨?_, ?_, ?_, ?_, ?_⟩ <;> trivial

/-- One EXIT event fires at tick `i` (with the debounce counter hitting
exactly `EXIT_SECONDS` there for the first time), no other EXIT fires
anywhere in the trace, and no ENTRY fires at all. -/
def ExitOnce (outs : List TickOut) (i : Nat) : Prop :=
  eventAt outs i = some Ev.EXIT ∧
  exitCtrAt outs i = some EXIT_SECONDS ∧
  (∀ j, j < i → ∃ c, exitCtrAt outs j = some c ∧ c < EXIT_SECONDS) ∧
  (∀ j, j ≠ i → eventAt outs j ≠ some Ev.EXIT) ∧
  (∀ j, eventAt outs j ≠ some Ev.ENTRY)

theorem eventAt_nil (j : Nat) : eventAt [] j = none := by
  simp [eventAt]

theorem eventAt_cons_zero (o : TickOut) (outs : List TickOut) :
    eventAt (o :: outs) 0 = o.event := by
  simp [eventAt]

theorem eventAt_cons_succ (o : TickOut) (outs : List TickOut) (j : Nat) :
    eventAt (o :: outs) (j + 1) = eventAt outs j := by
  simp [eventAt]

theorem exitCtrAt_cons_zero (o : TickOut) (outs : List TickOut) :
    exitCtrAt (o :: outs) 0 = some o.exitCtr := by
  simp [exitCtrAt]

theorem exitCtrAt_cons_succ (o : TickOut) (outs : List TickOut) (j : Nat) :
    exitCtrAt (o :: outs) (j + 1) = exitCtrAt outs j := by
  simp [exitCtrAt]

theorem ExitOnce_cons (o : TickOut) (outs : List TickOut) (i : Nat)
    (hev : o.event = none) (hc : o.exitCtr < EXIT_SECONDS)
    (h : ExitOnce outs i) : ExitOnce (o :: outs) (i + 1) := by
  obtain ⟨h1, h2, h3, h4, h5⟩ := h
  refine ⟨?_, ?_, ?_, ?_, ?_⟩
  · rwa [eventAt_cons_succ]
  · rwa [exitCtrAt_cons_succ]
  · intro j hj
    cases j with
    | zero => exact ⟨o.exitCtr, exitCtrAt_cons_zero o outs, hc⟩
    | succ j' =>
        rw [exitCtrAt_cons_succ]
        exact h3 j' (by omega)
  · intro j hj
    cases j with
    | zero =>
        rw [eventAt_cons_zero, hev]
        simp
    | succ j' =>
        rw [eventAt_cons_succ]
        exact h4 j' (by omega)
  · intro j
    cases j with
    | zero =>
        rw [eventAt_cons_zero, hev]
        simp
    | succ j' =>
        rw [eventAt_cons_succ]
        exact h5 j'

theorem ExitOnce_head (o : TickOut) (outs : List TickOut)
    (hev : o.event = some Ev.EXIT) (hc : o.exitCtr = EXIT_SECONDS)
    (hrest : ∀ j, eventAt outs j = none) : ExitOnce (o :: outs) 0 := by
  refine ⟨?_, ?_, ?_, ?_, ?_⟩
  · rw [eventAt_cons_zero, hev]
  · rw [exitCtrAt_cons_zero, hc]
  · intro j hj; omega
  · intro j hj
    cases j with
    | zero => omega
    | succ j' =>
        rw [eventAt_cons_succ, hrest j']
        simp
  · intro j
    cases j with
    | zero =>
        rw [eventAt_cons_zero, hev]
        simp
    | succ j' =>
        rw [eventAt_cons_succ, hrest j']
        simp

/-- Once the detector is OUTSIDE with an all-zero window, an all-zero delta
stream never produces another event (no ENTRY, since the window total stays
zero, and no EXIT, since the state is OUTSIDE). -/
theorem run_silent (s : LoopState) (ins : List TickIn)
    (hin : s.inside = false) (hsum : s.deltaHistory.sum = 0)
    (hz : ∀ t ∈ ins, t.delta = 0) :
    ∀ j, eventAt (runDet s ins).2 j = none := by
  induction ins generalizing s with
  | nil =>
      intro j
      simp [runDet, eventAt]
  | cons t ts ih =>
      intro j
      have ht : t.delta = 0 := hz t (List.mem_cons_self t ts)
      have hhist : (pushDelta s.deltaHistory t.delta).sum = 0 := by
        rw [ht]
        exact sum_pushDelta_zero _ hsum
      have hpps : ¬ 0 < ppsOf (pushDelta s.deltaHistory t.delta) := by
        rw [ppsOf_pos_iff, hhist]
        omega
      obtain ⟨hst, hdh, hev⟩ := detTick_quiet_outside s t.delta t.fix t.fixE hin hpps
      simp only [runDet]
      cases j with
      | zero =>
          rw [eventAt_cons_zero]
          exact hev
      | succ j' =>
          rw [eventAt_cons_succ]
          exact ih (detTick s t.delta t.fix t.fixE).1 hst (by rw [hdh]; exact hhist)
            (fun u hu => hz u (List.mem_cons_of_mem t hu)) j'

/-- From INSIDE with an already all-zero window, an all-zero stream of at
least `EXIT_SECONDS - exitCounter` ticks fires exactly one EXIT, at the tick
where the exit counter first reaches `EXIT_SECONDS`. -/
theorem run_exit_from_quiet (s : LoopState) (ins : List TickIn)
    (hin : s.inside = true) (hsum : s.deltaHistory.sum = 0)
    (he : s.exitCounter < EXIT_SECONDS)
    (hz : ∀ t ∈ ins, t.delta = 0)
    (hn : EXIT_SECONDS - s.exitCounter ≤ ins.length) :
    ExitOnce (runDet s ins).2 (EXIT_SECONDS - s.exitCounter - 1) := by
  induction ins generalizing s with
  | nil =>
      exfalso
      simp only [List.length_nil] at hn
      omega
  | cons t ts ih =>
      have ht : t.delta = 0 := hz t (List.mem_cons_self t ts)
      have hhist : (pushDelta s.deltaHistory t.delta).sum = 0 := by
        rw [ht]
        exact sum_pushDelta_zero _ hsum
      have hpps : ¬ 0 < ppsOf (pushDelta s.deltaHistory t.delta) := by
        rw [ppsOf_pos_iff, hhist]
        omega
      by_cases hfire : EXIT_SECONDS ≤ s.exitCounter + 1
      · obtain ⟨hst, hxc, hdh, hev, hctr⟩ :=
          detTick_quiet_inside_fire s t.delta t.fix t.fixE hin hpps hfire
        have hidx : EXIT_SECONDS - s.exitCounter - 1 = 0 := by omega
        rw [hidx]
        simp only [runDet]
        refine ExitOnce_head _ _ hev ?_ ?_
        · rw [hctr]; omega
        · exact run_silent _ ts hst (by rw [hdh]; exact hhist)
            (fun u hu => hz u (List.mem_cons_of_mem t hu))
      · obtain ⟨hst, hxc, hdh, hev, hctr⟩ :=
          detTick_quiet_inside s t.delta t.fix t.fixE hin hpps (by omega)
        have hrec := ih (detTick s t.delta t.fix t.fixE).1 hst
          (by rw [hdh]; exact hhist) (by omega)
          (fun u hu => hz u (List.mem_cons_of_mem t hu))
          (by rw [hxc]; simp only [List.length_cons] at hn; omega)
        rw [hxc] at hrec
        have hidx : EXIT_SECONDS - s.exitCounter - 1 =
            (EXIT_SECONDS - (s.exitCounter + 1) - 1) + 1 := by omega
        rw [hidx]
        simp only [runDet]
        exact ExitOnce_cons _ _ _ hev (by omega) hrec

/-- From INSIDE with a window that still holds activity, an all-zero stream
long enough for the window to drain and the exit counter to climb fires
exactly one EXIT. -/
theorem run_exit_from_active (s : LoopState) (ins : List TickIn)
    (hin : s.inside = true) (hlen : s.deltaHistory.length ≤ PPS_WINDOW_SEC)
    (hsumne : s.deltaHistory.sum ≠ 0)
    (he : s.exitCounter < EXIT_SECONDS)
    (hz : ∀ t ∈ ins, t.delta = 0)
    (hn : (PPS_WINDOW_SEC - trailZeros s.deltaHistory) + EXIT_SECONDS - 1 ≤ ins.length) :
    ∃ i, i < ins.length ∧ ExitOnce (runDet s ins).2 i := by
  induction ins generalizing s with
  | nil =>
      exfalso
      have htz := trailZeros_lt_of_sum_ne _ hsumne
      have hE : EXIT_SECONDS = 4 := rfl
      simp only [List.length_nil] at hn
      omega
  | cons t ts ih =>
      have ht : t.delta = 0 := hz t (List.mem_cons_self t ts)
      have htz := trailZeros_lt_of_sum_ne _ hsumne
      have hE : EXIT_SECONDS = 4 := rfl
      have hP : PPS_WINDOW_SEC = 4 := rfl
      simp only [List.length_cons] at hn
      by_cases hq : (pushDelta s.deltaHistory t.delta).sum = 0
      · have hpps : ¬ 0 < ppsOf (pushDelta s.deltaHistory t.delta) := by
          rw [ppsOf_pos_iff, hq]
          omega
        by_cases hfire : EXIT_SECONDS ≤ s.exitCounter + 1
        · obtain ⟨hst, hxc, hdh, hev, hctr⟩ :=
            detTick_quiet_inside_fire s t.delta t.fix t.fixE hin hpps hfire
          refine ⟨0, by simp, ?_⟩
          simp only [runDet]
          refine ExitOnce_head _ _ hev ?_ ?_
          · rw [hctr]; omega
          · exact run_silent _ ts hst (by rw [hdh]; exact hq)
              (fun u hu => hz u (List.mem_cons_of_mem t hu))
        · obtain ⟨hst, hxc, hdh, hev, hctr⟩ :=
            detTick_quiet_inside s t.delta t.fix t.fixE hin hpps (by omega)
          have hrec := run_exit_from_quiet (detTick s t.delta t.fix t.fixE).1 ts hst
            (by rw [hdh]; exact hq) (by rw [hxc]; omega)
            (fun u hu => hz u (List.mem_cons_of_mem t hu))
            (by rw [hxc]; omega)
          rw [hxc] at hrec
          refine ⟨(EXIT_SECONDS - (s.exitCounter + 1) - 1) + 1,
            by simp only [List.length_cons]; omega, ?_⟩
          simp only [runDet]
          exact ExitOnce_cons _ _ _ hev (by omega) hrec
      · have hpps : 0 < ppsOf (pushDelta s.deltaHistory t.delta) := by
          rw [ppsOf_pos_iff]
          omega
        obtain ⟨hst, hxc, hdh, hev, hctr⟩ :=
          detTick_active_inside s t.delta t.fix t.fixE hin hpps
        have htzp : trailZeros (pushDelta s.deltaHistory t.delta) =
            trailZeros s.deltaHistory + 1 := by
          rw [ht] at hq ⊢
          exact trailZeros_pushDelta_zero _ hq
        obtain ⟨i', hi', hEx⟩ := ih (detTick s t.delta t.fix t.fixE).1 hst
          (by rw [hdh]; exact length_pushDelta_le _ _ hlen)
          (by rw [hdh]; exact hq) (by rw [hxc]; omega)
          (fun u hu => hz u (List.mem_cons_of_mem t hu))
          (by rw [hdh, htzp]; omega)
        refine ⟨i' + 1, by simp only [List.length_cons]; omega, ?_⟩
        simp only [runDet]
        exact ExitOnce_cons _ _ _ hev (by rw [hctr]; omega) hEx

end Monitor

/-- C9: for all pairs of points, the haversine distance satisfies
`distance(a, a) == 0` and `distance(a, b) == distance(b, a)`, in both the
scalar form (`haversine_m`, monitor.py) and the vectorized form
(`haversine_m_np`, analyze_loop.py); over idealised real arithmetic the
identities are exact, hence hold within any floating tolerance. -/
theorem c9_haversine_self_and_symm (lat1 lon1 lat2 lon2 : ℝ) :
    GeoMath.haversine_m lat1 lon1 lat1 lon1 = 0 ∧
    GeoMath.haversine_m lat1 lon1 lat2 lon2 = GeoMath.haversine_m lat2 lon2 lat1 lon1 ∧
    GeoMath.haversine_m_np lat1 lon1 lat1 lon1 = 0 ∧
    GeoMath.haversine_m_np lat1 lon1 lat2 lon2 = GeoMath.haversine_m_np lat2 lon2 lat1 lon1 :=
  ⟨GeoMath.haversine_m_self lat1 lon1, GeoMath.haversine_m_symm lat1 lon1 lat2 lon2,
   GeoMath.haversine_m_np_self lat1 lon1, GeoMath.haversine_m_np_symm lat1 lon1 lat2 lon2⟩

/-- C10: the remote size read maps an absent file to `0` (a normal reading,
not a failure) and returns the fatal `None` signal exactly on
connection-level errors; consequently a run of the live loop whose size
reads never hit a connection error processes every tick (the loop is never
terminated merely because the monitored file is absent). -/
theorem c10_absent_file_not_fatal :
    Monitor.getRemoteFileSize Monitor.SftpRead.fileNotFound = some 0 ∧
    (∀ r : Monitor.SftpRead,
      Monitor.getRemoteFileSize r = none ↔ r = Monitor.SftpRead.connLost) ∧
    (∀ (s : Monitor.LoopState) (ins : List Monitor.LoopIn),
      (∀ t ∈ ins, t.read ≠ Monitor.SftpRead.connLost) →
      ((Monitor.runLoop s ins).2).length = ins.length) := by
  refine ⟨rfl, ?_, ?_⟩
  · intro r
    cases r <;> simp [Monitor.getRemoteFileSize]
  · intro s ins
    induction ins generalizing s with
    | nil => intro _; rfl
    | cons t ts ih =>
        intro h
        have ht : t.read ≠ Monitor.SftpRead.connLost := h t (List.mem_cons_self t ts)
        have hs : ∃ n, Monitor.getRemoteFileSize t.read = some n := by
          cases hr : t.read with
          | found n => exact ⟨n, rfl⟩
          | fileNotFound => exact ⟨0, rfl⟩
          | connLost => exact absurd hr ht
        obtain ⟨n, hn⟩ := hs
        simp only [Monitor.runLoop, hn, List.length_cons]
        rw [ih _ (fun u hu => h u (List.mem_cons_of_mem t hu))]

/-- Witness for C10: a concrete three-tick run in which the file is absent
on the first tick still processes all three ticks. -/
theorem c10_absent_file_not_fatal_witness :
    ((Monitor.runLoop (Monitor.initState 0)
      [⟨Monitor.SftpRead.fileNotFound, none, none⟩,
       ⟨Monitor.SftpRead.found 98, none, none⟩,
       ⟨Monitor.SftpRead.found 196, none, none⟩]).2).length = 3 :=
  (c10_absent_file_not_fatal.2.2 (Monitor.initState 0)
    [⟨Monitor.SftpRead.fileNotFound, none, none⟩,
     ⟨Monitor.SftpRead.found 98, none, none⟩,
     ⟨Monitor.SftpRead.found 196, none, none⟩] (by decide))

/-- Inputs of the C1 counterexample run: three active ticks (98 bytes each)
that drive the detector INSIDE, followed by exactly `EXIT_SECONDS = 4` ticks
of all-zero byte deltas. -/
def c1CexIns : List Monitor.TickIn :=
  [⟨98, none, none⟩, ⟨98, none, none⟩, ⟨98, none, none⟩,
   ⟨0, none, none⟩, ⟨0, none, none⟩, ⟨0, none, none⟩, ⟨0, none, none⟩]

/-- C1 counterexample: after three active ticks the detector is INSIDE (an
ENTRY fired at tick 2), and it is then fed a byte-delta stream of all zeros
for exactly `EXIT_SECONDS` consecutive ticks — yet no EXIT event at all is
emitted, because the smoothing window still holds the earlier activity and
the exit counter only starts climbing once the window drains.  This refutes
the claim that zeros for at least `EXIT_SECONDS` ticks always produce
exactly one EXIT. -/
theorem c1_counterexample :
    (Monitor.runDet (Monitor.initState 0) (c1CexIns.take 3)).1.inside = true ∧
    Monitor.eventAt (Monitor.runDet (Monitor.initState 0) c1CexIns).2 2 =
      some Monitor.Ev.ENTRY ∧
    (c1CexIns.drop 3).length = Monitor.EXIT_SECONDS ∧
    (∀ t ∈ c1CexIns.drop 3, t.delta = 0) ∧
    ((Monitor.runDet (Monitor.initState 0) c1CexIns).2.countP
      (fun o => o.event == some Monitor.Ev.EXIT)) = 0 := by
  refine ⟨?_, ?_, ?_, ?_, ?_⟩ <;>
    norm_num [c1CexIns, Monitor.runDet, Monitor.detTick, Monitor.initState,
      Monitor.pushDelta, Monitor.ppsOf, Monitor.transition, Monitor.eventAt,
      Monitor.PPS_WINDOW_SEC, Monitor.PACKET_SIZE_BYTES,
      Monitor.POLL_INTERVAL_SEC, Monitor.ENTRY_SECONDS, Monitor.EXIT_SECONDS,
      List.countP_cons, List.countP_nil]
  decide

/-- C1 (amended): from any reachable INSIDE state (window holding at most
`PPS_WINDOW_SEC` deltas, exit counter below `EXIT_SECONDS`), feeding a
byte-delta stream of all zeros for at least
`PPS_WINDOW_SEC + EXIT_SECONDS - 1` consecutive ticks emits exactly one EXIT
event, at the tick where the exit counter first reaches `EXIT_SECONDS`
(every earlier tick has a strictly smaller exit counter), and no further
EXIT — and no ENTRY — is emitted anywhere in the stream. -/
theorem c1_exit_debounce_amended (s : Monitor.LoopState) (ins : List Monitor.TickIn)
    (hin : s.inside = true)
    (hlen : s.deltaHistory.length ≤ Monitor.PPS_WINDOW_SEC)
    (he : s.exitCounter < Monitor.EXIT_SECONDS)
    (hz : ∀ t ∈ ins, t.delta = 0)
    (hn : Monitor.PPS_WINDOW_SEC + Monitor.EXIT_SECONDS - 1 ≤ ins.length) :
    ∃ i, i < ins.length ∧ Monitor.ExitOnce (Monitor.runDet s ins).2 i := by
  have hE : Monitor.EXIT_SECONDS = 4 := rfl
  have hP : Monitor.PPS_WINDOW_SEC = 4 := rfl
  by_cases hq : s.deltaHistory.sum = 0
  · refine ⟨Monitor.EXIT_SECONDS - s.exitCounter - 1, by omega, ?_⟩
    exact Monitor.run_exit_from_quiet s ins hin hq he hz (by omega)
  · have htz := Monitor.trailZeros_lt_of_sum_ne _ hq
    exact Monitor.run_exit_from_active s ins hin hlen hq he hz (by omega)

/-- A reachable INSIDE state whose window still holds activity, used to
instantiate the amended C1 theorem. -/
def c1WitS : Monitor.LoopState :=
  { inside := true, entryCounter := 1, exitCounter := 0,
    deltaHistory := [0, 0, 0, 98], prevSize := 98, lastGps := none }

/-- Inputs of the C1 witness run: 7 all-zero ticks. -/
def c1WitIns : List Monitor.TickIn :=
  List.replicate 7 ⟨0, none, none⟩

/-- Witness for the amended C1 theorem at a concrete INSIDE state and a
7-tick all-zero stream. -/
theorem c1_exit_debounce_amended_witness :
    (∀ t ∈ c1WitIns, t.delta = 0) ∧
    ∃ i, i < c1WitIns.length ∧
      Monitor.ExitOnce (Monitor.runDet c1WitS c1WitIns).2 i :=
  ⟨by decide,
   c1_exit_debounce_amended c1WitS c1WitIns rfl (by decide) (by decide)
     (by decide) (by decide)⟩

/-- C5 (amended, one poll tick): a speed estimate is emitted if and only if
the current GPS fix is valid and some last known fix is retained (the last
known fix need not come from the immediately preceding tick); the estimate is
the haversine distance from the retained fix to the current fix divided by
the fixed tick interval (converted to mph).  A tick with a missing fix emits
its sample with location fields absent and no speed, and the retained fix is
kept unchanged across such ticks; every valid fix replaces the retained
fix. -/
theorem c5_speed_amended (s : Monitor.LoopState) (delta : Nat)
    (fix fixE : Option (ℚ × ℚ)) :
    ((Monitor.detTick s delta fix fixE).2.speedFrom ≠ none ↔
      (fix ≠ none ∧ s.lastGps ≠ none)) ∧
    (∀ p c, (Monitor.detTick s delta fix fixE).2.speedFrom = some (p, c) →
      s.lastGps = some p ∧ fix = some c ∧
      Monitor.tickSpeedMph (Monitor.detTick s delta fix fixE).2 =
        some (GeoMath.haversine_m p.1 p.2 c.1 c.2 /
          (Monitor.POLL_INTERVAL_SEC : ℝ) * (Monitor.MPH_FACTOR : ℝ))) ∧
    (fix = none →
      (Monitor.detTick s delta fix fixE).2.lat = none ∧
      (Monitor.detTick s delta fix fixE).2.lon = none ∧
      (Monitor.detTick s delta fix fixE).2.speedFrom = none ∧
      (Monitor.detTick s delta fix fixE).1.lastGps = s.lastGps) ∧
    (∀ c, fix = some c → (Monitor.detTick s delta fix fixE).1.lastGps = some c) := by
  have hpoll : (0 : ℚ) < (Monitor.POLL_INTERVAL_SEC : ℚ) := by
    norm_num [Monitor.POLL_INTERVAL_SEC]
  cases fix with
  | none =>
      cases hg : s.lastGps <;>
        simp [Monitor.detTick, Monitor.tickSpeedMph, hg]
  | some c =>
      cases hg : s.lastGps with
      | none => simp [Monitor.detTick, Monitor.tickSpeedMph, hg]
      | some p =>
          simp only [Monitor.detTick, Monitor.tickSpeedMph, hg, if_pos hpoll]
          refine ⟨by simp, ?_, by simp, by simp⟩
          intro p' c' hp
          simp only [Option.some.injEq, Prod.mk.injEq] at hp
          obtain ⟨hp1, hp2⟩ := hp
          subst hp1
          subst hp2
          exact ⟨rfl, rfl, by simp⟩

/-- A loop state with a retained GPS fix, for the C5 witness. -/
def c5WitS : Monitor.LoopState :=
  { inside := true, entryCounter := 0, exitCounter := 0, deltaHistory := [],
    prevSize := 0, lastGps := some (3, 4) }

/-- Witness for the amended C5 theorem: a concrete tick with a valid fix
replaces the retained fix. -/
theorem c5_speed_amended_witness :
    (Monitor.detTick c5WitS 0 (some (1, 2)) none).1.lastGps = some (1, 2) :=
  (c5_speed_amended c5WitS 0 (some (1, 2)) none).2.2.2 (1, 2) rfl

/-- Inputs of the C5 counterexample run: a valid fix, then a missing fix,
then another valid fix — so no two consecutive ticks both carry valid
fixes. -/
def c5CexIns : List Monitor.TickIn :=
  [⟨0, some (0, 0), none⟩, ⟨0, none, none⟩, ⟨0, some (0, 1 / 1000), none⟩]

/-- C5 counterexample: the fix of tick 1 is missing, so the fixes seen at
ticks 0 and 2 are not one tick apart; the claim says no speed estimate is
emitted at tick 2, but the code emits one there, computed from the tick-0
fix retained across the gap. -/
theorem c5_counterexample :
    (c5CexIns[1]?).bind Monitor.TickIn.fix = none ∧
    Monitor.speedFromAt (Monitor.runDet (Monitor.initState 0) c5CexIns).2 1 = none ∧
    Monitor.speedFromAt (Monitor.runDet (Monitor.initState 0) c5CexIns).2 2 =
      some ((0, 0), (0, 1 / 1000)) := by
  refine ⟨?_, ?_, ?_⟩ <;>
    norm_num [c5CexIns, Monitor.runDet, Monitor.detTick, Monitor.initState,
      Monitor.pushDelta, Monitor.ppsOf, Monitor.transition, Monitor.speedFromAt,
      Monitor.PPS_WINDOW_SEC, Monitor.PACKET_SIZE_BYTES,
      Monitor.POLL_INTERVAL_SEC, Monitor.ENTRY_SECONDS, Monitor.EXIT_SECONDS]

namespace Analyze

/-- A float cell of a table column: NaN (missing) or a finite value.  The
pipeline is generic in the scalar type `α`; the concrete run instantiates
`α := ℝ` with the haversine distance, and the properties proved below hold
for every instantiation. -/
inductive FV (α : Type) where
  | nan : FV α
  | val : α → FV α
deriving DecidableEq

/-- Whether a cell is NaN. -/
def FV.isNaN {α : Type} : FV α → Bool
  | FV.nan => true
  | FV.val _ => false

/-- Scan step of `np.argmin`: the running best (index, value) is replaced
when the current cell compares strictly below it, or when the current cell
is NaN while the best is not; a NaN best is never replaced, so the first NaN
wins. -/
def argminAux {α : Type} [LinearOrder α] : List (FV α) → Nat → Nat → FV α → Nat
  | [], _, bi, _ => bi
  | x :: xs, i, bi, bv =>
      if (match bv, x with
          | FV.val _, FV.nan => true
          | FV.val b, FV.val a => decide (a < b)
          | FV.nan, _ => false) then
        argminAux xs (i + 1) i x
      else
        argminAux xs (i + 1) bi bv

/-- `np.argmin` over one row: the index of the first NaN if any, else the
first index attaining the minimum; `none` on an empty row. -/
def npArgmin {α : Type} [LinearOrder α] : List (FV α) → Option Nat
  | [] => none
  | x :: xs => some (argminAux xs 1 0 x)

/-- Pairwise NaN-propagating minimum, the reduction step of `np.min`. -/
def fminFV {α : Type} [LinearOrder α] : FV α → FV α → FV α
  | FV.nan, _ => FV.nan
  | FV.val _, FV.nan => FV.nan
  | FV.val a, FV.val b => FV.val (min a b)

/-- `np.min` over one row (NaN-propagating); NaN on an empty row (never hit:
rows have one cell per reference). -/
def npMin {α : Type} [LinearOrder α] : List (FV α) → FV α
  | [] => FV.nan
  | x :: xs => xs.foldl fminFV x

theorem argminAux_nan {α : Type} [LinearOrder α] (xs : List (FV α)) (i bi : Nat) :
    argminAux xs i bi FV.nan = bi := by
  induction xs generalizing i with
  | nil => rfl
  | cons x xs ih => cases x <;> simp [argminAux, ih]

theorem fminFV_nan_left {α : Type} [LinearOrder α] (x : FV α) :
    fminFV FV.nan x = FV.nan := by
  cases x <;> rfl

theorem foldl_fminFV_nan {α : Type} [LinearOrder α] (l : List (FV α)) :
    l.foldl fminFV FV.nan = FV.nan := by
  induction l with
  | nil => rfl
  | cons x xs ih => rw [List.foldl_cons, fminFV_nan_left, ih]

theorem npMin_nan_head {α : Type} [LinearOrder α] (l : List (FV α)) :
    npMin (FV.nan :: l) = FV.nan := by
  simp [npMin, foldl_fminFV_nan]

/-- Invariant of the `np.argmin` scan over NaN-free cells: the result either
keeps the running best (which then bounds every remaining cell from below)
or lands on the first strict improvement among the remaining cells. -/
theorem argminAux_val_spec {α : Type} [LinearOrder α] (xs : List α) (i bi : Nat) (bv : α) :
    (argminAux (xs.map FV.val) i bi (FV.val bv) = bi ∧ ∀ x ∈ xs, bv ≤ x) ∨
    (∃ (j : Nat) (z : α), xs[j]? = some z ∧
      argminAux (xs.map FV.val) i bi (FV.val bv) = i + j ∧
      z < bv ∧ (∀ y ∈ xs, z ≤ y) ∧
      (∀ (j' : Nat) (y : α), j' < j → xs[j']? = some y → z < y)) := by
  induction xs generalizing i bi bv with
  | nil =>
      left
      exact ⟨rfl, by simp⟩
  | cons x xs ih =>
      simp only [List.map_cons, argminAux, decide_eq_true_eq]
      by_cases hx : x < bv
      · rw [if_pos hx]
        rcases ih (i + 1) i x with ⟨h1, h2⟩ | ⟨j, z, hj, hres, hlt, hmin, hfirst⟩
        · right
          refine ⟨0, x, by simp, by rw [h1]; omega, hx, ?_, ?_⟩
          · intro y hy
            rcases List.mem_cons.mp hy with rfl | hy
            · exact le_refl y
            · exact h2 y hy
          · intro j' y hj' _
            omega
        · right
          refine ⟨j + 1, z, by simpa using hj, by rw [hres]; omega,
            lt_trans hlt hx, ?_, ?_⟩
          · intro y hy
            rcases List.mem_cons.mp hy with rfl | hy
            · exact le_of_lt hlt
            · exact hmin y hy
          · intro j' y hj' hy
            cases j' with
            | zero =>
                simp only [List.getElem?_cons_zero, Option.some.injEq] at hy
                subst hy
                exact hlt
            | succ j'' =>
                rw [List.getElem?_cons_succ] at hy
                exact hfirst j'' y (by omega) hy
      · rw [if_neg hx]
        rcases ih (i + 1) bi bv with ⟨h1, h2⟩ | ⟨j, z, hj, hres, hlt, hmin, hfirst⟩
        · left
          refine ⟨h1, ?_⟩
          intro y hy
          rcases List.mem_cons.mp hy with rfl | hy
          · exact not_lt.mp hx
          · exact h2 y hy
        · right
          refine ⟨j + 1, z, by simpa using hj, by rw [hres]; omega, hlt, ?_, ?_⟩
          · intro y hy
            rcases List.mem_cons.mp hy with rfl | hy
            · exact le_of_lt (lt_of_lt_of_le hlt (not_lt.mp hx))
            · exact hmin y hy
          · intro j' y hj' hy
            cases j' with
            | zero =>
                simp only [List.getElem?_cons_zero, Option.some.injEq] at hy
                subst hy
                exact lt_of_lt_of_le hlt (not_lt.mp hx)
            | succ j'' =>
                rw [List.getElem?_cons_succ] at hy
                exact hfirst j'' y (by omega) hy

/-- `np.argmin` on a nonempty NaN-free row: it returns an index `k` holding
the minimum value, every cell is at least that value, and every cell before
`k` is strictly greater (first-occurrence tie-break). -/
theorem npArgmin_val_char {α : Type} [LinearOrder α] (d : α) (ds : List α) :
    ∃ (k : Nat) (m : α), npArgmin ((d :: ds).map FV.val) = some k ∧
      (d :: ds)[k]? = some m ∧
      (∀ (j : Nat) (y : α), (d :: ds)[j]? = some y → m ≤ y) ∧
      (∀ (j : Nat) (y : α), j < k → (d :: ds)[j]? = some y → m < y) := by
  simp only [List.map_cons, npArgmin]
  rcases argminAux_val_spec ds 1 0 d with ⟨h1, h2⟩ | ⟨j, z, hj, hres, hlt, hmin, hfirst⟩
  · refine ⟨0, d, by rw [h1], by simp, ?_, ?_⟩
    · intro j y hy
      cases j with
      | zero =>
          simp only [List.getElem?_cons_zero, Option.some.injEq] at hy
          subst hy
          exact le_rfl
      | succ j' =>
          rw [List.getElem?_cons_succ] at hy
          exact h2 y (List.getElem?_mem hy)
    · intro j y hj _
      omega
  · refine ⟨j + 1, z, by rw [hres, Nat.add_comm], by simpa using hj, ?_, ?_⟩
    · intro j' y hy
      cases j' with
      | zero =>
          simp only [List.getElem?_cons_zero, Option.some.injEq] at hy
          subst hy
          exact le_of_lt hlt
      | succ j'' =>
          rw [List.getElem?_cons_succ] at hy
          exact hmin y (List.getElem?_mem hy)
    · intro j' y hj' hy
      cases j' with
      | zero =>
          simp only [List.getElem?_cons_zero, Option.some.injEq] at hy
          subst hy
          exact hlt
      | succ j'' =>
          rw [List.getElem?_cons_succ] at hy
          exact hfirst j'' y (by omega) hy

/-- A fixed reference point, the `RSU` dataclass: identifier and
coordinates. -/
structure RSU (α : Type) where
  rsu_id : String
  lat : α
  lon : α
deriving DecidableEq

/-- A telemetry row as consumed by the distance enhancer: location (possibly
NaN) plus the columns the range-profile aggregation reads
(`delta_bytes`, `has_pkts`, `time_since_last_pkt`). -/
structure MRow (α : Type) where
  latitude : FV α
  longitude : FV α
  delta_bytes : ℚ
  has_pkts : ℚ
  time_since_last_pkt : ℚ
deriving DecidableEq

/-- NaN propagation of the vectorized haversine: a missing coordinate makes
the whole distance NaN, otherwise the scalar distance function applies. -/
def distFV {α : Type} (dist : α → α → α → α → α) :
    FV α → FV α → α → α → FV α
  | FV.val la, FV.val lo, rlat, rlon => FV.val (dist la lo rlat rlon)
  | _, _, _, _ => FV.nan

theorem distFV_nan_lat {α : Type} (dist : α → α → α → α → α) (lo : FV α) (a b : α) :
    distFV dist FV.nan lo a b = FV.nan := by
  cases lo <;> rfl

theorem distFV_nan_lon {α : Type} (dist : α → α → α → α → α) (la : FV α) (a b : α) :
    distFV dist la FV.nan a b = FV.nan := by
  cases la <;> rfl

/-- An enhanced telemetry row: the original row plus the per-reference
distance columns `dist_<id>_m` (in reference input order), `nearest_rsu` and
`dist_from_rsu_m`. -/
structure ERow (α : Type) where
  base : MRow α
  dists : List (FV α)
  nearest_rsu : String
  dist_from_rsu_m : FV α
deriving DecidableEq

/-- An enhanced telemetry table: the rows plus the `dist_union_m` column,
which exists only when more than one reference is configured (aligned with
the rows by index). -/
structure Enhanced (α : Type) where
  rows : List (ERow α)
  dist_union_m : Option (List (FV α))
deriving DecidableEq

/-- One row of `add_distance_features_metrics`: the per-reference distance
cells `dist_<id>_m` of this row, and `nearest_rsu` / `dist_from_rsu_m` from
`np.argmin` over them (the `getD` defaults are never reached for a nonempty
reference list, where the argmin index is in range). -/
def enhanceRow {α : Type} [LinearOrder α] (dist : α → α → α → α → α)
    (rsus : List (RSU α)) (m : MRow α) : ERow α :=
  let ds := rsus.map (fun r => distFV dist m.latitude m.longitude r.lat r.lon)
  let k := (npArgmin ds).getD 0
  { base := m, dists := ds,
    nearest_rsu := ((rsus[k]?).map RSU.rsu_id).getD "",
    dist_from_rsu_m := (ds[k]?).getD FV.nan }

theorem enhanceRow_base {α : Type} [LinearOrder α] (dist : α → α → α → α → α)
    (rsus : List (RSU α)) (m : MRow α) : (enhanceRow dist rsus m).base = m := rfl

theorem enhanceRow_dists {α : Type} [LinearOrder α] (dist : α → α → α → α → α)
    (rsus : List (RSU α)) (m : MRow α) :
    (enhanceRow dist rsus m).dists =
      rsus.map (fun r => distFV dist m.latitude m.longitude r.lat r.lon) := rfl

theorem enhanceRow_nearest {α : Type} [LinearOrder α] (dist : α → α → α → α → α)
    (rsus : List (RSU α)) (m : MRow α) :
    (enhanceRow dist rsus m).nearest_rsu =
      ((rsus[((npArgmin (rsus.map (fun r =>
        distFV dist m.latitude m.longitude r.lat r.lon))).getD 0)]?).map
          RSU.rsu_id).getD "" := rfl

theorem enhanceRow_from {α : Type} [LinearOrder α] (dist : α → α → α → α → α)
    (rsus : List (RSU α)) (m : MRow α) :
    (enhanceRow dist rsus m).dist_from_rsu_m =
      (((rsus.map (fun r => distFV dist m.latitude m.longitude r.lat r.lon))[
        ((npArgmin (rsus.map (fun r =>
          distFV dist m.latitude m.longitude r.lat r.lon))).getD 0)]?).getD
            FV.nan) := rfl

/-- `add_distance_features_metrics`: per reference, attach the vectorized
distance column; then `nearest_rsu` and `dist_from_rsu_m` from `np.argmin`
over the per-row distance vector, and `dist_union_m = np.min` across
references when more than one reference exists.  With an empty reference
list the source raises (`np.vstack` of an empty list), modelled as `none`;
the callers guarantee at least one reference. -/
def addDistanceFeaturesMetrics {α : Type} [LinearOrder α]
    (dist : α → α → α → α → α) (rsus : List (RSU α)) (metrics : List (MRow α)) :
    Option (Enhanced α) :=
  match rsus with
  | [] => none
  | _ :: _ =>
      let rows := metrics.map (enhanceRow dist rsus)
      some { rows := rows,
             dist_union_m :=
               if 1 < rsus.length then some (rows.map (fun er => npMin er.dists))
               else none }

end Analyze

namespace Analyze

/-- Deduplication keeping first occurrences (`drop_duplicates`), with an
accumulator of already-seen keys. -/
def uniqFirstAux {κ : Type} [DecidableEq κ] : List κ → List κ → List κ
  | _, [] => []
  | seen, x :: xs =>
      if x ∈ seen then uniqFirstAux seen xs
      else x :: uniqFirstAux (x :: seen) xs

/-- `drop_duplicates` / `nunique` support: the distinct values of a column
in first-occurrence order. -/
def uniqFirst {κ : Type} [DecidableEq κ] (l : List κ) : List κ :=
  uniqFirstAux [] l

theorem uniqFirstAux_mem {κ : Type} [DecidableEq κ] (l : List κ) :
    ∀ (seen : List κ) (k : κ), k ∈ uniqFirstAux seen l ↔ k ∈ l ∧ k ∉ seen := by
  induction l with
  | nil =>
      intro seen k
      simp [uniqFirstAux]
  | cons x xs ih =>
      intro seen k
      simp only [uniqFirstAux]
      by_cases hx : x ∈ seen
      · rw [if_pos hx, ih]
        simp only [List.mem_cons]
        constructor
        · rintro ⟨h1, h2⟩
          exact ⟨Or.inr h1, h2⟩
        · rintro ⟨h1 | h1, h2⟩
          · subst h1
            exact absurd hx h2
          · exact ⟨h1, h2⟩
      · rw [if_neg hx]
        simp only [List.mem_cons, ih]
        constructor
        · rintro (rfl | ⟨h1, h2⟩)
          · exact ⟨Or.inl rfl, hx⟩
          · exact ⟨Or.inr h1, fun hs => h2 (Or.inr hs)⟩
        · rintro ⟨h1 | h1, h2⟩
          · exact Or.inl h1
          · by_cases hk : k = x
            · exact Or.inl hk
            · exact Or.inr ⟨h1, fun hs => hs.elim hk h2⟩

theorem uniqFirstAux_nodup {κ : Type} [DecidableEq κ] (l : List κ) :
    ∀ seen : List κ, (uniqFirstAux seen l).Nodup := by
  induction l with
  | nil =>
      intro seen
      simp [uniqFirstAux]
  | cons x xs ih =>
      intro seen
      simp only [uniqFirstAux]
      by_cases hx : x ∈ seen
      · rw [if_pos hx]
        exact ih seen
      · rw [if_neg hx]
        refine List.nodup_cons.mpr ⟨?_, ih (x :: seen)⟩
        intro hmem
        exact ((uniqFirstAux_mem xs (x :: seen) x).mp hmem).2 (List.mem_cons_self x seen)

theorem uniqFirst_mem {κ : Type} [DecidableEq κ] (l : List κ) (k : κ) :
    k ∈ uniqFirst l ↔ k ∈ l := by
  simp [uniqFirst, uniqFirstAux_mem]

theorem uniqFirst_nodup {κ : Type} [DecidableEq κ] (l : List κ) :
    (uniqFirst l).Nodup :=
  uniqFirstAux_nodup l []

theorem sum_map_add {κ : Type} (ks : List κ) (f g : κ → Nat) :
    (ks.map (fun k => f k + g k)).sum = (ks.map f).sum + (ks.map g).sum := by
  induction ks with
  | nil => rfl
  | cons k ks ih =>
      simp only [List.map_cons, List.sum_cons, ih]
      omega

theorem sum_indicator_zero {κ : Type} [DecidableEq κ] (ks : List κ) (k₀ : κ)
    (h : k₀ ∉ ks) :
    (ks.map (fun k => if k₀ = k then 1 else 0)).sum = 0 := by
  induction ks with
  | nil => rfl
  | cons k ks ih =>
      simp only [List.map_cons, List.sum_cons]
      rw [if_neg (fun he => h (by rw [he]; exact List.mem_cons_self k ks)),
        ih (fun hm => h (List.mem_cons_of_mem _ hm))]

theorem sum_indicator_one {κ : Type} [DecidableEq κ] (ks : List κ) (hnd : ks.Nodup)
    (k₀ : κ) (hk : k₀ ∈ ks) :
    (ks.map (fun k => if k₀ = k then 1 else 0)).sum = 1 := by
  induction ks with
  | nil => cases hk
  | cons k ks ih =>
      simp only [List.map_cons, List.sum_cons]
      rcases List.mem_cons.mp hk with rfl | hk'
      · rw [if_pos rfl, sum_indicator_zero ks k₀ (List.nodup_cons.mp hnd).1]
      · have hne : k₀ ≠ k := by
          rintro rfl
          exact (List.nodup_cons.mp hnd).1 hk'
        rw [if_neg hne, ih (List.nodup_cons.mp hnd).2 hk']

/-- Grouping partitions the rows: summing the per-group row counts over any
duplicate-free list of keys covering all rows gives back the row count. -/
theorem sum_filter_counts {κ β : Type} [DecidableEq κ] (ks : List κ) (hnd : ks.Nodup)
    (l : List β) (key : β → κ) (hcov : ∀ b ∈ l, key b ∈ ks) :
    (ks.map (fun k => (l.filter (fun b => decide (key b = k))).length)).sum = l.length := by
  induction l with
  | nil => simp
  | cons b bs ih =>
      have hb : key b ∈ ks := hcov b (List.mem_cons_self b bs)
      have hbs : ∀ b' ∈ bs, key b' ∈ ks := fun b' h' => hcov b' (List.mem_cons_of_mem _ h')
      have hmapeq :
          ks.map (fun k => (List.filter (fun b' => decide (key b' = k)) (b :: bs)).length) =
          ks.map (fun k => (if key b = k then 1 else 0) +
            (List.filter (fun b' => decide (key b' = k)) bs).length) := by
        apply List.map_eq_map_iff.mpr
        intro k _
        simp only [List.filter_cons]
        by_cases hkb : key b = k
        · rw [if_pos (by simp [hkb]), if_pos hkb]
          simp only [List.length_cons]
          omega
        · rw [if_neg (by simp [hkb]), if_neg hkb]
          omega
      rw [hmapeq, sum_map_add]
      have hone : (ks.map (fun k => if key b = k then 1 else 0)).sum = 1 :=
        sum_indicator_one ks hnd (key b) hb
      rw [hone, ih hbs]
      simp only [List.length_cons]
      omega

/-- Comparison of optional group keys (the `nearest_rsu` component is either
present for all rows or absent for all rows of one profile). -/
def optStrLt : Option String → Option String → Bool
  | none, some _ => true
  | none, none => false
  | some _, none => false
  | some a, some b => decide (a < b)

/-- Lexicographic "group key then bin" order used by
`sort_values(group_cols)`. -/
def keyLE {α : Type} [LinearOrder α] (k₁ k₂ : Option String × α) : Bool :=
  optStrLt k₁.1 k₂.1 || (decide (k₁.1 = k₂.1) && decide (k₁.2 ≤ k₂.2))

/-- `keyLE` as a relation, for `List.insertionSort`. -/
def keyRel {α : Type} [LinearOrder α] (k₁ k₂ : Option String × α) : Prop :=
  keyLE k₁ k₂ = true

instance {α : Type} [LinearOrder α] : DecidableRel (keyRel (α := α)) :=
  fun _ _ => instDecidableEqBool _ _

theorem optStrLt_tri (o₁ o₂ : Option String) :
    optStrLt o₁ o₂ = true ∨ o₁ = o₂ ∨ optStrLt o₂ o₁ = true := by
  cases o₁ with
  | none =>
      cases o₂ with
      | none => exact Or.inr (Or.inl rfl)
      | some b => exact Or.inl rfl
  | some a =>
      cases o₂ with
      | none => exact Or.inr (Or.inr rfl)
      | some b =>
          rcases lt_trichotomy a b with h | h | h
          · exact Or.inl (by simp [optStrLt, h])
          · exact Or.inr (Or.inl (by rw [h]))
          · exact Or.inr (Or.inr (by simp [optStrLt, h]))

theorem optStrLt_trans {o₁ o₂ o₃ : Option String}
    (h₁ : optStrLt o₁ o₂ = true) (h₂ : optStrLt o₂ o₃ = true) :
    optStrLt o₁ o₃ = true := by
  cases o₁ <;> cases o₂ <;> cases o₃ <;>
    simp only [optStrLt, decide_eq_true_eq] at h₁ h₂ ⊢ <;>
    first
      | trivial
      | exact lt_trans h₁ h₂

theorem optStrLt_irrefl (o : Option String) : optStrLt o o = false := by
  cases o with
  | none => rfl
  | some a => simp [optStrLt]

instance {α : Type} [LinearOrder α] : IsTotal (Option String × α) (keyRel (α := α)) := by
  refine ⟨fun a b => ?_⟩
  unfold keyRel keyLE
  rcases optStrLt_tri a.1 b.1 with h | h | h
  · left
    rw [h]
    simp
  · rcases le_total a.2 b.2 with h2 | h2
    · left
      simp [h, h2]
    · right
      simp [h.symm, h2]
  · right
    rw [h]
    simp

instance {α : Type} [LinearOrder α] : IsTrans (Option String × α) (keyRel (α := α)) := by
  refine ⟨fun a b c hab hbc => ?_⟩
  unfold keyRel keyLE at hab hbc ⊢
  simp only [Bool.or_eq_true, Bool.and_eq_true, decide_eq_true_eq] at hab hbc ⊢
  rcases hab with hab | ⟨hab1, hab2⟩
  · rcases hbc with hbc | ⟨hbc1, hbc2⟩
    · exact Or.inl (optStrLt_trans hab hbc)
    · exact Or.inl (hbc1 ▸ hab)
  · rcases hbc with hbc | ⟨hbc1, hbc2⟩
    · exact Or.inl (hab1 ▸ hbc)
    · exact Or.inr ⟨hab1.trans hbc1, le_trans hab2 hbc2⟩

/-- `sort_values(group_cols)` on the distinct group keys. -/
def sortKeys {α : Type} [LinearOrder α] (ks : List (Option String × α)) :
    List (Option String × α) :=
  List.insertionSort keyRel ks

/-- `(d // bin_m) * bin_m`: the lower edge of the distance bin of `d`
(float floor division). -/
def binLower {α : Type} [LinearOrderedField α] [FloorRing α] (bin_m d : α) : α :=
  (⌊d / bin_m⌋ : ℤ) * bin_m

/-- The `dist_bin_m` column: floor-division binning, NaN propagating. -/
def binFV {α : Type} [LinearOrderedField α] [FloorRing α] (bin_m : α) : FV α → FV α
  | FV.nan => FV.nan
  | FV.val d => FV.val (binLower bin_m d)

/-- One output row of a range profile. -/
structure ProfileRow (α : Type) where
  nearest_rsu : Option String
  dist_bin_m : α
  n_samples : Nat
  coverage_fraction : ℚ
  mean_delta_bytes : ℚ
  mean_time_since_last_pkt : ℚ
  dist_bin_center_m : α
deriving DecidableEq

/-- The `groupby(...).agg(...)` body for one group key: sample count and the
three means, plus the bin center. -/
def groupAgg {α : Type} [LinearOrderedField α] (bin_m : α)
    (valid : List (ERow α × α)) (keyOf : ERow α × α → Option String × α)
    (k : Option String × α) : ProfileRow α :=
  let members := valid.filter (fun p => decide (keyOf p = k))
  { nearest_rsu := k.1, dist_bin_m := k.2,
    n_samples := members.length,
    coverage_fraction :=
      (members.map (fun p => p.1.base.has_pkts)).sum / (members.length : ℚ),
    mean_delta_bytes :=
      (members.map (fun p => p.1.base.delta_bytes)).sum / (members.length : ℚ),
    mean_time_since_last_pkt :=
      (members.map (fun p => p.1.base.time_since_last_pkt)).sum / (members.length : ℚ),
    dist_bin_center_m := k.2 + bin_m / 2 }

/-- The rows that survive `groupby`: those whose binned distance is not
NaN, paired with their bin. -/
def validBinned {α : Type} [LinearOrderedField α] [FloorRing α]
    (bin_m : α) (rows : List (ERow α)) : List (ERow α × α) :=
  rows.filterMap (fun er =>
    match binFV bin_m er.dist_from_rsu_m with
    | FV.val b => some (er, b)
    | FV.nan => none)

/-- The group key of a binned row: the bin, prefixed by `nearest_rsu` when
grouping by reference is in effect. -/
def nearestKeyOf {α : Type} (groupTwo : Bool) (p : ERow α × α) :
    Option String × α :=
  (if groupTwo then some p.1.nearest_rsu else none, p.2)

/-- `build_range_profile_nearest`: bin `dist_from_rsu_m` by floor division
(NaN rows are dropped by `groupby`), group by the bin — also by
`nearest_rsu` when it takes more than one distinct value — aggregate, and
sort by group key then bin. -/
def buildRangeProfileNearest {α : Type} [LinearOrderedField α] [FloorRing α]
    (metrics : Enhanced α) (bin_m : α) : List (ProfileRow α) :=
  let groupTwo :=
    decide (1 < (uniqFirst (metrics.rows.map (fun er => er.nearest_rsu))).length)
  let valid := validBinned bin_m metrics.rows
  (sortKeys (uniqFirst (valid.map (nearestKeyOf groupTwo)))).map
    (groupAgg bin_m valid (nearestKeyOf groupTwo))

/-- The rows that survive the union `groupby`: rows zipped with their
`dist_union_m` cell, kept when the binned union distance is not NaN. -/
def validBinnedUnion {α : Type} [LinearOrderedField α] [FloorRing α]
    (bin_m : α) (rows : List (ERow α)) (us : List (FV α)) : List (ERow α × α) :=
  (rows.zip us).filterMap (fun p =>
    match binFV bin_m p.2 with
    | FV.val b => some (p.1, b)
    | FV.nan => none)

/-- `build_range_profile_union`: a configuration error when the
`dist_union_m` column is absent (fewer than two references); otherwise bin
the union distance, group by bin, aggregate and sort. -/
def buildRangeProfileUnion {α : Type} [LinearOrderedField α] [FloorRing α]
    (metrics : Enhanced α) (bin_m : α) : Except String (List (ProfileRow α)) :=
  match metrics.dist_union_m with
  | none => Except.error
      "Union profile requested but dist_union_m not available (need >=2 RSUs)."
  | some us =>
      let valid := validBinnedUnion bin_m metrics.rows us
      Except.ok ((sortKeys (uniqFirst (valid.map (nearestKeyOf false)))).map
        (groupAgg bin_m valid (nearestKeyOf false)))

end Analyze

namespace Analyze

theorem addDistanceFeaturesMetrics_cons {α : Type} [LinearOrder α]
    (dist : α → α → α → α → α) (r₀ : RSU α) (rest : List (RSU α))
    (metrics : List (MRow α)) :
    addDistanceFeaturesMetrics dist (r₀ :: rest) metrics =
      some { rows := metrics.map (enhanceRow dist (r₀ :: rest)),
             dist_union_m :=
               if 1 < (r₀ :: rest).length then
                 some ((metrics.map (enhanceRow dist (r₀ :: rest))).map
                   (fun er => npMin er.dists))
               else none } := rfl

end Analyze

/-- C2: for every telemetry table and nonempty reference list, each enhanced
row with a valid location has `dist_from_rsu_m` equal to the per-reference
distance cell at some index `k` which is a lower bound of all the row's
per-reference distances (i.e. their minimum), all those cells are non-NaN,
every cell before `k` is strictly larger (ties broken by first occurrence in
reference input order), and `nearest_rsu` is the identifier of reference
`k`.  Stated for the enhancer generically over the scalar type and distance
function, hence in particular for the real haversine instantiation. -/
theorem c2_nearest_is_argmin {α : Type} [LinearOrder α]
    (dist : α → α → α → α → α) (rsus : List (Analyze.RSU α))
    (metrics : List (Analyze.MRow α)) (enh : Analyze.Enhanced α)
    (i : Nat) (row : Analyze.ERow α)
    (henh : Analyze.addDistanceFeaturesMetrics dist rsus metrics = some enh)
    (hrow : enh.rows[i]? = some row)
    (hlat : row.base.latitude ≠ Analyze.FV.nan)
    (hlon : row.base.longitude ≠ Analyze.FV.nan) :
    ∃ (k : Nat) (r : Analyze.RSU α) (mv : α),
      rsus[k]? = some r ∧
      row.nearest_rsu = r.rsu_id ∧
      row.dists[k]? = some (Analyze.FV.val mv) ∧
      row.dist_from_rsu_m = Analyze.FV.val mv ∧
      (∀ (j : Nat) (y : Analyze.FV α), row.dists[j]? = some y →
        ∃ z : α, y = Analyze.FV.val z ∧ mv ≤ z) ∧
      (∀ (j : Nat) (z : α), j < k →
        row.dists[j]? = some (Analyze.FV.val z) → mv < z) := by
  cases rsus with
  | nil => exact absurd henh (by simp [Analyze.addDistanceFeaturesMetrics])
  | cons r₀ rest =>
      rw [Analyze.addDistanceFeaturesMetrics_cons, Option.some.injEq] at henh
      subst henh
      simp only [List.getElem?_map, Option.map_eq_some'] at hrow
      obtain ⟨m₀, hm₀, heq⟩ := hrow
      subst heq
      rw [Analyze.enhanceRow_base] at hlat hlon
      obtain ⟨la, hla⟩ : ∃ la, m₀.latitude = Analyze.FV.val la := by
        cases hL : m₀.latitude with
        | nan => exact absurd hL hlat
        | val a => exact ⟨a, rfl⟩
      obtain ⟨lo, hlo⟩ : ∃ lo, m₀.longitude = Analyze.FV.val lo := by
        cases hL : m₀.longitude with
        | nan => exact absurd hL hlon
        | val a => exact ⟨a, rfl⟩
      have hds : (r₀ :: rest).map (fun r =>
          Analyze.distFV dist m₀.latitude m₀.longitude r.lat r.lon) =
          ((r₀ :: rest).map (fun r => dist la lo r.lat r.lon)).map Analyze.FV.val := by
        rw [List.map_map]
        apply List.map_eq_map_iff.mpr
        intro r _
        rw [hla, hlo]
        rfl
      have hmapcons : (r₀ :: rest).map (fun r => dist la lo r.lat r.lon) =
          dist la lo r₀.lat r₀.lon :: rest.map (fun r => dist la lo r.lat r.lon) := rfl
      obtain ⟨k, mv, hargk, hkval, hmin, hfirst⟩ :=
        Analyze.npArgmin_val_char (dist la lo r₀.lat r₀.lon)
          (rest.map (fun r => dist la lo r.lat r.lon))
      have hargk' : Analyze.npArgmin ((r₀ :: rest).map (fun r =>
          Analyze.distFV dist m₀.latitude m₀.longitude r.lat r.lon)) = some k := by
        rw [hds, hmapcons]
        exact hargk
      have hklen : k < (r₀ :: rest).length := by
        obtain ⟨h1, -⟩ := List.getElem?_eq_some.mp hkval
        simpa using h1
      obtain ⟨r, hr⟩ : ∃ r, (r₀ :: rest)[k]? = some r :=
        ⟨(r₀ :: rest)[k], List.getElem?_eq_some.mpr ⟨hklen, rfl⟩⟩
      refine ⟨k, r, mv, hr, ?_, ?_, ?_, ?_, ?_⟩
      · rw [Analyze.enhanceRow_nearest, hargk']
        simp [hr]
      · rw [Analyze.enhanceRow_dists, hds, List.getElem?_map, hmapcons, hkval]
        rfl
      · rw [Analyze.enhanceRow_from, hargk']
        simp only [Option.getD_some]
        rw [hds, List.getElem?_map, hmapcons, hkval]
        rfl
      · intro j y hy
        rw [Analyze.enhanceRow_dists, hds, List.getElem?_map,
          Option.map_eq_some'] at hy
        obtain ⟨z, hz, hyz⟩ := hy
        rw [hmapcons] at hz
        exact ⟨z, hyz.symm, hmin j z hz⟩
      · intro j z hj hy
        rw [Analyze.enhanceRow_dists, hds, List.getElem?_map,
          Option.map_eq_some'] at hy
        obtain ⟨z', hz', hval⟩ := hy
        injection hval with hval
        subst hval
        rw [hmapcons] at hz'
        exact hfirst j z' hj hz'

/-- Distance function of the concrete C2 witness (the latitude of the
reference, so the two references are at distances 3 and 5). -/
def c2Dist : ℚ → ℚ → ℚ → ℚ → ℚ := fun _ _ rlat _ => rlat

/-- References of the C2 witness. -/
def c2Rsus : List (Analyze.RSU ℚ) := [⟨"R1", 3, 0⟩, ⟨"R2", 5, 1⟩]

/-- Telemetry table of the C2 witness: one sample with a valid location. -/
def c2Metrics : List (Analyze.MRow ℚ) :=
  [{ latitude := Analyze.FV.val 0, longitude := Analyze.FV.val 0,
     delta_bytes := 98, has_pkts := 1, time_since_last_pkt := 0 }]

/-- The enhanced row the witness run produces. -/
def c2Row : Analyze.ERow ℚ :=
  { base := { latitude := Analyze.FV.val 0, longitude := Analyze.FV.val 0,
              delta_bytes := 98, has_pkts := 1, time_since_last_pkt := 0 },
    dists := [Analyze.FV.val 3, Analyze.FV.val 5],
    nearest_rsu := "R1",
    dist_from_rsu_m := Analyze.FV.val 3 }

/-- The enhanced table the witness run produces. -/
def c2Enh : Analyze.Enhanced ℚ :=
  { rows := [c2Row], dist_union_m := some [Analyze.FV.val 3] }

/-- Witness for C2 at a concrete two-reference table. -/
theorem c2_nearest_is_argmin_witness :
    ∃ (k : Nat) (r : Analyze.RSU ℚ) (mv : ℚ),
      c2Rsus[k]? = some r ∧
      c2Row.nearest_rsu = r.rsu_id ∧
      c2Row.dists[k]? = some (Analyze.FV.val mv) ∧
      c2Row.dist_from_rsu_m = Analyze.FV.val mv ∧
      (∀ (j : Nat) (y : Analyze.FV ℚ), c2Row.dists[j]? = some y →
        ∃ z : ℚ, y = Analyze.FV.val z ∧ mv ≤ z) ∧
      (∀ (j : Nat) (z : ℚ), j < k →
        c2Row.dists[j]? = some (Analyze.FV.val z) → mv < z) :=
  c2_nearest_is_argmin c2Dist c2Rsus c2Metrics c2Enh 0 c2Row rfl rfl
    (by decide) (by decide)

/-- References of the C6 counterexample. -/
def c6Rsus : List (Analyze.RSU ℚ) := [⟨"R1", 0, 0⟩, ⟨"R2", 1, 1⟩]

/-- Telemetry table of the C6 counterexample: a single sample whose location
is missing. -/
def c6Metrics : List (Analyze.MRow ℚ) :=
  [{ latitude := Analyze.FV.nan, longitude := Analyze.FV.nan,
     delta_bytes := 0, has_pkts := 0, time_since_last_pkt := 0 }]

/-- C6 counterexample: the only sample has a missing location, yet the
enhancer assigns it a nearest reference — the first reference's identifier
"R1" (`np.argmin` returns the index of the first NaN) — contradicting the
claim that no nearest reference is assigned to such samples. -/
theorem c6_counterexample :
    (∀ m ∈ c6Metrics, m.latitude = Analyze.FV.nan) ∧
    (Analyze.addDistanceFeaturesMetrics c2Dist c6Rsus c6Metrics).map
      (fun e => e.rows.map (fun r => r.nearest_rsu)) = some ["R1"] := by
  exact ⟨by decide, rfl⟩

/-- C6 (amended): a sample with a missing location receives NaN for every
per-reference distance, NaN `dist_from_rsu_m`, and NaN in the union-distance
column when that column exists, and the enhancement is total (never an
error) on such samples — but `nearest_rsu` is still assigned: it gets the
identifier of the first reference, because `np.argmin` over an all-NaN row
returns the index of its first NaN (0). -/
theorem c6_missing_location_amended {α : Type} [LinearOrder α]
    (dist : α → α → α → α → α) (rsus : List (Analyze.RSU α))
    (metrics : List (Analyze.MRow α)) (enh : Analyze.Enhanced α)
    (i : Nat) (m : Analyze.MRow α)
    (henh : Analyze.addDistanceFeaturesMetrics dist rsus metrics = some enh)
    (hm : metrics[i]? = some m)
    (hmiss : m.latitude = Analyze.FV.nan ∨ m.longitude = Analyze.FV.nan) :
    ∃ row : Analyze.ERow α, enh.rows[i]? = some row ∧
      row.dists = List.replicate rsus.length Analyze.FV.nan ∧
      row.dist_from_rsu_m = Analyze.FV.nan ∧
      (∃ r₀ rest, rsus = r₀ :: rest ∧ row.nearest_rsu = r₀.rsu_id) ∧
      (∀ us, enh.dist_union_m = some us → us[i]? = some Analyze.FV.nan) := by
  cases rsus with
  | nil => exact absurd henh (by simp [Analyze.addDistanceFeaturesMetrics])
  | cons r₀ rest =>
      rw [Analyze.addDistanceFeaturesMetrics_cons, Option.some.injEq] at henh
      subst henh
      have hdall : ∀ r : Analyze.RSU α,
          Analyze.distFV dist m.latitude m.longitude r.lat r.lon = Analyze.FV.nan := by
        intro r
        rcases hmiss with h | h
        · rw [h]
          exact Analyze.distFV_nan_lat dist m.longitude r.lat r.lon
        · rw [h]
          exact Analyze.distFV_nan_lon dist m.latitude r.lat r.lon
      have hds : (r₀ :: rest).map (fun r =>
          Analyze.distFV dist m.latitude m.longitude r.lat r.lon) =
          List.replicate (r₀ :: rest).length Analyze.FV.nan := by
        have h1 : (r₀ :: rest).map (fun r =>
            Analyze.distFV dist m.latitude m.longitude r.lat r.lon) =
            (r₀ :: rest).map (fun _ => Analyze.FV.nan) :=
          List.map_eq_map_iff.mpr (fun r _ => hdall r)
        rw [h1, List.map_const']
      have hdcons : (r₀ :: rest).map (fun r =>
          Analyze.distFV dist m.latitude m.longitude r.lat r.lon) =
          Analyze.FV.nan :: List.replicate rest.length Analyze.FV.nan := by
        rw [hds]
        simp [List.replicate_succ]
      have hargz : Analyze.npArgmin ((r₀ :: rest).map (fun r =>
          Analyze.distFV dist m.latitude m.longitude r.lat r.lon)) = some 0 := by
        rw [hdcons]
        simp only [Analyze.npArgmin]
        rw [Analyze.argminAux_nan]
      refine ⟨Analyze.enhanceRow dist (r₀ :: rest) m, ?_, ?_, ?_, ?_, ?_⟩
      · simp only [List.getElem?_map, hm, Option.map_some']
      · rw [Analyze.enhanceRow_dists, hds]
      · rw [Analyze.enhanceRow_from, hargz]
        simp only [Option.getD_some]
        rw [hdcons]
        simp
      · refine ⟨r₀, rest, rfl, ?_⟩
        rw [Analyze.enhanceRow_nearest, hargz]
        simp
      · intro us hus
        by_cases h2 : 1 < (r₀ :: rest).length
        · simp only [h2, ite_true, Option.some.injEq] at hus
          subst hus
          simp only [List.map_map, List.getElem?_map, hm, Option.map_some',
            Function.comp_apply, Option.some.injEq]
          rw [Analyze.enhanceRow_dists, hdcons]
          exact Analyze.npMin_nan_head _
        · simp only [h2, ite_false] at hus
          cases hus

/-- The enhanced table the C6 witness run produces. -/
def c6Enh : Analyze.Enhanced ℚ :=
  { rows := [{ base := { latitude := Analyze.FV.nan, longitude := Analyze.FV.nan,
                         delta_bytes := 0, has_pkts := 0, time_since_last_pkt := 0 },
               dists := [Analyze.FV.nan, Analyze.FV.nan],
               nearest_rsu := "R1",
               dist_from_rsu_m := Analyze.FV.nan }],
    dist_union_m := some [Analyze.FV.nan] }

/-- Witness for the amended C6 theorem at a concrete missing-location
sample. -/
theorem c6_missing_location_amended_witness :
    ∃ row : Analyze.ERow ℚ, c6Enh.rows[0]? = some row ∧
      row.dists = List.replicate c6Rsus.length Analyze.FV.nan ∧
      row.dist_from_rsu_m = Analyze.FV.nan ∧
      (∃ r₀ rest, c6Rsus = r₀ :: rest ∧ row.nearest_rsu = r₀.rsu_id) ∧
      (∀ us, c6Enh.dist_union_m = some us → us[0]? = some Analyze.FV.nan) :=
  c6_missing_location_amended c2Dist c6Rsus c6Metrics c6Enh 0
    { latitude := Analyze.FV.nan, longitude := Analyze.FV.nan,
      delta_bytes := 0, has_pkts := 0, time_since_last_pkt := 0 }
    rfl rfl (Or.inl rfl)

namespace Analyze

theorem buildRangeProfileUnion_none {α : Type} [LinearOrderedField α] [FloorRing α]
    (metrics : Enhanced α) (bin_m : α) (h : metrics.dist_union_m = none) :
    buildRangeProfileUnion metrics bin_m = Except.error
      "Union profile requested but dist_union_m not available (need >=2 RSUs)." := by
  unfold buildRangeProfileUnion
  rw [h]

theorem buildRangeProfileUnion_some {α : Type} [LinearOrderedField α] [FloorRing α]
    (metrics : Enhanced α) (bin_m : α) (us : List (FV α))
    (h : metrics.dist_union_m = some us) :
    ∃ p, buildRangeProfileUnion metrics bin_m = Except.ok p := by
  unfold buildRangeProfileUnion
  rw [h]
  exact ⟨_, rfl⟩

end Analyze

/-- C7: on a table produced by the enhancer with fewer than two references,
the union-profile build fails with the configuration error (the
`dist_union_m` column is absent); with two or more references (and a
positive bin width) it succeeds. -/
theorem c7_union_requires_two_refs {α : Type} [LinearOrderedField α] [FloorRing α]
    (dist : α → α → α → α → α) (rsus : List (Analyze.RSU α))
    (metrics : List (Analyze.MRow α)) (enh : Analyze.Enhanced α) (bin_m : α)
    (henh : Analyze.addDistanceFeaturesMetrics dist rsus metrics = some enh) :
    (rsus.length < 2 →
      ∃ msg, Analyze.buildRangeProfileUnion enh bin_m = Except.error msg) ∧
    (2 ≤ rsus.length → 0 < bin_m →
      ∃ p, Analyze.buildRangeProfileUnion enh bin_m = Except.ok p) := by
  cases rsus with
  | nil => exact absurd henh (by simp [Analyze.addDistanceFeaturesMetrics])
  | cons r₀ rest =>
      rw [Analyze.addDistanceFeaturesMetrics_cons, Option.some.injEq] at henh
      subst henh
      constructor
      · intro hlt
        have h2 : ¬ 1 < (r₀ :: rest).length := by
          simp only [List.length_cons] at hlt ⊢
          omega
        exact ⟨_, Analyze.buildRangeProfileUnion_none _ _ (if_neg h2)⟩
      · intro hge hbin
        have h2 : 1 < (r₀ :: rest).length := by
          simp only [List.length_cons] at hge ⊢
          omega
        exact Analyze.buildRangeProfileUnion_some _ bin_m _ (if_pos h2)

/-- The enhanced table of the C7 witness (two references, empty metrics). -/
def c7Enh : Analyze.Enhanced ℚ := { rows := [], dist_union_m := some [] }

/-- Witness for C7: with two references the union build succeeds. -/
theorem c7_union_requires_two_refs_witness :
    ∃ p, Analyze.buildRangeProfileUnion c7Enh (50 : ℚ) = Except.ok p :=
  (c7_union_requires_two_refs c2Dist c2Rsus ([] : List (Analyze.MRow ℚ)) c7Enh 50
    rfl).2 (by decide) (by norm_num)

namespace Analyze

theorem binLower_mem {α : Type} [LinearOrderedField α] [FloorRing α]
    (bin_m d : α) (h : 0 < bin_m) :
    binLower bin_m d ≤ d ∧ d < binLower bin_m d + bin_m := by
  unfold binLower
  constructor
  · have h1 : ((⌊d / bin_m⌋ : ℤ) : α) ≤ d / bin_m := Int.floor_le _
    calc ((⌊d / bin_m⌋ : ℤ) : α) * bin_m ≤ (d / bin_m) * bin_m :=
          mul_le_mul_of_nonneg_right h1 (le_of_lt h)
      _ = d := div_mul_cancel₀ d (ne_of_gt h)
  · have h1 : d / bin_m < ((⌊d / bin_m⌋ : ℤ) : α) + 1 := Int.lt_floor_add_one _
    calc d = (d / bin_m) * bin_m := (div_mul_cancel₀ d (ne_of_gt h)).symm
      _ < (((⌊d / bin_m⌋ : ℤ) : α) + 1) * bin_m := mul_lt_mul_of_pos_right h1 h
      _ = ((⌊d / bin_m⌋ : ℤ) : α) * bin_m + bin_m := by ring

theorem binLower_unique {α : Type} [LinearOrderedField α] [FloorRing α]
    (bin_m d : α) (h : 0 < bin_m) (z : ℤ) :
    ((z : α) * bin_m ≤ d ∧ d < ((z : α) + 1) * bin_m) ↔ z = ⌊d / bin_m⌋ := by
  constructor
  · rintro ⟨h1, h2⟩
    have ha : (z : α) ≤ d / bin_m := (le_div_iff h).mpr h1
    have hb : d / bin_m < (z : α) + 1 := (div_lt_iff h).mpr (by linarith)
    symm
    rw [Int.floor_eq_iff]
    · exact ⟨ha, by exact_mod_cast hb⟩
  · rintro rfl
    have hm := binLower_mem bin_m d h
    unfold binLower at hm
    exact ⟨hm.1, by linarith [hm.2]⟩

theorem groupAgg_n_samples {α : Type} [LinearOrderedField α] (bin_m : α)
    (valid : List (ERow α × α)) (keyOf : ERow α × α → Option String × α)
    (k : Option String × α) :
    (groupAgg bin_m valid keyOf k).n_samples =
      (valid.filter (fun p => decide (keyOf p = k))).length := rfl

/-- Summing the group sizes of the sorted, deduplicated group keys recovers
the number of surviving rows. -/
theorem sorted_groups_sum {α : Type} [LinearOrderedField α] [FloorRing α]
    (bin_m : α) (valid : List (ERow α × α))
    (keyOf : ERow α × α → Option String × α) :
    (((sortKeys (uniqFirst (valid.map keyOf))).map (groupAgg bin_m valid keyOf)).map
      (fun r => r.n_samples)).sum = valid.length := by
  rw [List.map_map]
  have hcomp : ((fun r : ProfileRow α => r.n_samples) ∘ groupAgg bin_m valid keyOf) =
      fun k => (valid.filter (fun p => decide (keyOf p = k))).length := rfl
  rw [hcomp]
  have hperm :
      List.Perm
        ((sortKeys (uniqFirst (valid.map keyOf))).map
          (fun k => (valid.filter (fun p => decide (keyOf p = k))).length))
        ((uniqFirst (valid.map keyOf)).map
          (fun k => (valid.filter (fun p => decide (keyOf p = k))).length)) :=
    (List.perm_insertionSort keyRel (uniqFirst (valid.map keyOf))).map _
  rw [hperm.sum_eq]
  exact sum_filter_counts _ (uniqFirst_nodup _) valid keyOf
    (fun b hb => (uniqFirst_mem _ _).mpr (List.mem_map_of_mem keyOf hb))

/-- The sorted group rows are pairwise ordered by group key then bin. -/
theorem sorted_groups_pairwise {α : Type} [LinearOrderedField α] [FloorRing α]
    (bin_m : α) (valid : List (ERow α × α))
    (keyOf : ERow α × α → Option String × α) :
    List.Pairwise (fun r₁ r₂ : ProfileRow α =>
      keyLE (r₁.nearest_rsu, r₁.dist_bin_m) (r₂.nearest_rsu, r₂.dist_bin_m) = true)
      ((sortKeys (uniqFirst (valid.map keyOf))).map (groupAgg bin_m valid keyOf)) := by
  rw [List.pairwise_map]
  have hs : List.Pairwise keyRel (sortKeys (uniqFirst (valid.map keyOf))) :=
    List.sorted_insertionSort keyRel _
  exact List.Pairwise.imp (fun hab => hab) hs

theorem validBinned_length {α : Type} [LinearOrderedField α] [FloorRing α]
    (bin_m : α) (rows : List (ERow α)) :
    (validBinned bin_m rows).length =
      rows.countP (fun er => !er.dist_from_rsu_m.isNaN) := by
  unfold validBinned
  induction rows with
  | nil => rfl
  | cons er rows ih =>
      cases h : er.dist_from_rsu_m with
      | nan =>
          have hf : binFV bin_m er.dist_from_rsu_m = FV.nan := by
            rw [h]
            rfl
          have hcons : List.filterMap (fun er =>
              match binFV bin_m er.dist_from_rsu_m with
              | FV.val b => some (er, b)
              | FV.nan => none) (er :: rows) =
            List.filterMap (fun er =>
              match binFV bin_m er.dist_from_rsu_m with
              | FV.val b => some (er, b)
              | FV.nan => none) rows := by
            rw [List.filterMap_cons, hf]
          rw [hcons, List.countP_cons, ih]
          simp [h, FV.isNaN]
      | val d =>
          have hf : binFV bin_m er.dist_from_rsu_m = FV.val (binLower bin_m d) := by
            rw [h]
            rfl
          have hcons : List.filterMap (fun er =>
              match binFV bin_m er.dist_from_rsu_m with
              | FV.val b => some (er, b)
              | FV.nan => none) (er :: rows) =
            (er, binLower bin_m d) :: List.filterMap (fun er =>
              match binFV bin_m er.dist_from_rsu_m with
              | FV.val b => some (er, b)
              | FV.nan => none) rows := by
            rw [List.filterMap_cons, hf]
          rw [hcons, List.length_cons, List.countP_cons, ih]
          simp [h, FV.isNaN]

end Analyze

/-- C3: with a strictly positive bin width, (a) floor-division binning puts
every distance `d` into the left-closed right-open interval
`[binLower, binLower + bin_m)` and that interval is the unique one of the
form `[z*bin_m, (z+1)*bin_m)` containing `d` (`z = ⌊d / bin_m⌋`); (b) the
`n_samples` of the nearest-range profile rows sum to exactly the number of
input rows with a valid (non-NaN) `dist_from_rsu_m`; and (c) the output
rows are sorted by group key then bin. -/
theorem c3_range_profile_nearest {α : Type} [LinearOrderedField α] [FloorRing α]
    (metrics : Analyze.Enhanced α) (bin_m : α) (hbin : 0 < bin_m) :
    (∀ d : α, (Analyze.binLower bin_m d ≤ d ∧ d < Analyze.binLower bin_m d + bin_m) ∧
      ∀ z : ℤ, ((z : α) * bin_m ≤ d ∧ d < ((z : α) + 1) * bin_m) ↔ z = ⌊d / bin_m⌋) ∧
    ((Analyze.buildRangeProfileNearest metrics bin_m).map (fun r => r.n_samples)).sum =
      metrics.rows.countP (fun er => !er.dist_from_rsu_m.isNaN) ∧
    List.Pairwise (fun r₁ r₂ : Analyze.ProfileRow α =>
      Analyze.keyLE (r₁.nearest_rsu, r₁.dist_bin_m) (r₂.nearest_rsu, r₂.dist_bin_m) = true)
      (Analyze.buildRangeProfileNearest metrics bin_m) := by
  refine ⟨?_, ?_, ?_⟩
  · intro d
    exact ⟨Analyze.binLower_mem bin_m d hbin,
      fun z => Analyze.binLower_unique bin_m d hbin z⟩
  · unfold Analyze.buildRangeProfileNearest
    rw [Analyze.sorted_groups_sum, Analyze.validBinned_length]
  · unfold Analyze.buildRangeProfileNearest
    exact Analyze.sorted_groups_pairwise _ _ _

/-- Concrete enhanced table for the C3 witness: two valid distances and one
NaN distance. -/
def c3Enh : Analyze.Enhanced ℚ :=
  { rows :=
      [{ base := { latitude := Analyze.FV.val 1, longitude := Analyze.FV.val 1,
                   delta_bytes := 98, has_pkts := 1, time_since_last_pkt := 0 },
         dists := [Analyze.FV.val 10], nearest_rsu := "R1",
         dist_from_rsu_m := Analyze.FV.val 10 },
       { base := { latitude := Analyze.FV.val 2, longitude := Analyze.FV.val 2,
                   delta_bytes := 0, has_pkts := 0, time_since_last_pkt := 1 },
         dists := [Analyze.FV.val 60], nearest_rsu := "R1",
         dist_from_rsu_m := Analyze.FV.val 60 },
       { base := { latitude := Analyze.FV.nan, longitude := Analyze.FV.nan,
                   delta_bytes := 0, has_pkts := 0, time_since_last_pkt := 2 },
         dists := [Analyze.FV.nan], nearest_rsu := "R1",
         dist_from_rsu_m := Analyze.FV.nan }],
    dist_union_m := none }

/-- Witness for C3 at a concrete table and bin width 50. -/
theorem c3_range_profile_nearest_witness :
    (0 : ℚ) < 50 ∧
    ((∀ d : ℚ, (Analyze.binLower 50 d ≤ d ∧ d < Analyze.binLower 50 d + 50) ∧
      ∀ z : ℤ, ((z : ℚ) * 50 ≤ d ∧ d < ((z : ℚ) + 1) * 50) ↔ z = ⌊d / 50⌋) ∧
    ((Analyze.buildRangeProfileNearest c3Enh 50).map (fun r => r.n_samples)).sum =
      c3Enh.rows.countP (fun er => !er.dist_from_rsu_m.isNaN) ∧
    List.Pairwise (fun r₁ r₂ : Analyze.ProfileRow ℚ =>
      Analyze.keyLE (r₁.nearest_rsu, r₁.dist_bin_m) (r₂.nearest_rsu, r₂.dist_bin_m) = true)
      (Analyze.buildRangeProfileNearest c3Enh 50)) :=
  ⟨by norm_num, c3_range_profile_nearest c3Enh 50 (by norm_num)⟩

namespace Analyze

/-- The successfully parsed timestamps of the raw column, in row order
(`t.dropna()`). -/
def validVals (ts : List (Option ℚ)) : List ℚ := ts.filterMap id

/-- The number of values that failed to parse (`t.isna()` count). -/
def naCount (ts : List (Option ℚ)) : Nat := ts.countP (fun x => x.isNone)

/-- `sort_values()` on a numeric column. -/
def sortQ (l : List ℚ) : List ℚ := List.insertionSort (· ≤ ·) l

/-- The consecutive differences of the sorted parsed timestamps —
`t.sort_values().diff().dt.total_seconds().dropna()` (the leading NaN and
the NaT-adjacent diffs are dropped). -/
def diffsOf (ts : List (Option ℚ)) : List ℚ :=
  let s := sortQ (validVals ts)
  (s.zip s.tail).map (fun p => p.2 - p.1)

/-- `Series.median()`: the middle element of the sorted values, or the mean
of the two middle elements (0 on an empty series, unreachable here since the
caller guards on a nonempty diff list). -/
def medianQ (l : List ℚ) : ℚ :=
  let s := sortQ l
  if s.length = 0 then 0
  else if s.length % 2 = 1 then s.getD (s.length / 2) 0
  else ((s.getD (s.length / 2 - 1) 0) + s.getD (s.length / 2) 0) / 2

/-- First fallback test of `parse_timestamp_series`:
`t.isna().mean() > 0.5`, i.e. more than half the values failed to parse. -/
def tooManyNa (ts : List (Option ℚ)) : Prop := ts.length < 2 * naCount ts

instance (ts : List (Option ℚ)) : Decidable (tooManyNa ts) :=
  inferInstanceAs (Decidable (_ < _))

/-- Second fallback test: there is at least one consecutive difference and
either more than 20 percent of them are exactly zero or their median is
exactly zero. -/
def coarseTimestamps (ts : List (Option ℚ)) : Prop :=
  0 < (diffsOf ts).length ∧
    ((diffsOf ts).length < 5 * ((diffsOf ts).countP (fun d => decide (d = 0))) ∨
      medianQ (diffsOf ts) = 0)

instance (ts : List (Option ℚ)) : Decidable (coarseTimestamps ts) :=
  inferInstanceAs (Decidable (_ ∧ _))

/-- `parse_timestamp_series` with timestamps modelled as seconds (the fixed
epoch 1970-01-01 is second 0): if more than half the values are unparseable,
a 1 Hz timeline from the epoch; else if the timestamps are too coarse, a
1 Hz timeline anchored at the first successfully parsed value, preserving
row order; else the parsed series unchanged. -/
def parseTimestampSeries (ts : List (Option ℚ)) : List (Option ℚ) :=
  if tooManyNa ts then
    (List.range ts.length).map (fun i : ℕ => some ((0 : ℚ) + (i : ℚ)))
  else if coarseTimestamps ts then
    (List.range ts.length).map (fun i : ℕ => some ((validVals ts).headD 0 + (i : ℚ)))
  else ts

/-- Strict comparison of optional timestamps (false when either side is
missing). -/
def optLtQb (a b : Option ℚ) : Bool :=
  match a, b with
  | some x, some y => decide (x < y)
  | _, _ => false

/-- "A usable, strictly time-ordered timestamp per input row": every entry
present, and the entries strictly increasing in row order. -/
def strictTimeline (l : List (Option ℚ)) : Prop :=
  (∀ x ∈ l, x ≠ none) ∧ List.Pairwise (fun a b => optLtQb a b = true) l

/-- A synthesized 1 Hz ramp is a usable, strictly ordered timeline. -/
theorem ramp_strictTimeline (n : Nat) (base : ℚ) :
    strictTimeline ((List.range n).map (fun i : ℕ => some (base + (i : ℚ)))) := by
  constructor
  · intro x hx
    rw [List.mem_map] at hx
    obtain ⟨i, -, hi⟩ := hx
    rw [← hi]
    simp
  · exact List.Pairwise.map (R := (· < ·)) (l := List.range n)
      (S := fun a b => Analyze.optLtQb a b = true)
      (fun i : ℕ => some (base + (i : ℚ)))
      (fun a b hab => decide_eq_true (add_lt_add_left
        (show (a : ℚ) < (b : ℚ) from Nat.cast_lt.mpr hab) base))
      (List.pairwise_lt_range n)

end Analyze

/-- C4 (amended): the timeline repair follows the specified case analysis —
more than half unparseable gives a 1 Hz timeline from the fixed epoch;
otherwise a zero-heavy or zero-median diff distribution gives a 1 Hz
timeline anchored at the first parsed value, preserving row order — and in
those two synthesized cases the output is a usable, strictly time-ordered
timestamp per row.  In the remaining case the parsed series is returned
unchanged, and it may retain duplicate (non-strictly-ordered) or missing
entries. -/
theorem c4_timeline_repair_amended (ts : List (Option ℚ)) :
    (Analyze.tooManyNa ts →
      Analyze.parseTimestampSeries ts =
        (List.range ts.length).map (fun i : ℕ => some ((0 : ℚ) + (i : ℚ))) ∧
      Analyze.strictTimeline (Analyze.parseTimestampSeries ts)) ∧
    (¬ Analyze.tooManyNa ts → Analyze.coarseTimestamps ts →
      Analyze.parseTimestampSeries ts =
        (List.range ts.length).map
          (fun i : ℕ => some ((Analyze.validVals ts).headD 0 + (i : ℚ))) ∧
      Analyze.strictTimeline (Analyze.parseTimestampSeries ts)) ∧
    (¬ Analyze.tooManyNa ts → ¬ Analyze.coarseTimestamps ts →
      Analyze.parseTimestampSeries ts = ts) := by
  refine ⟨?_, ?_, ?_⟩
  · intro h1
    have he : Analyze.parseTimestampSeries ts =
        (List.range ts.length).map (fun i : ℕ => some ((0 : ℚ) + (i : ℚ))) := by
      unfold Analyze.parseTimestampSeries
      rw [if_pos h1]
    refine ⟨he, ?_⟩
    rw [he]
    exact Analyze.ramp_strictTimeline ts.length 0
  · intro h1 h2
    have he : Analyze.parseTimestampSeries ts =
        (List.range ts.length).map
          (fun i : ℕ => some ((Analyze.validVals ts).headD 0 + (i : ℚ))) := by
      unfold Analyze.parseTimestampSeries
      rw [if_neg h1, if_pos h2]
    refine ⟨he, ?_⟩
    rw [he]
    exact Analyze.ramp_strictTimeline ts.length _
  · intro h1 h2
    unfold Analyze.parseTimestampSeries
    rw [if_neg h1, if_neg h2]

/-- Input of the C4 witness: more than half the entries unparseable. -/
def c4WitTs : List (Option ℚ) := [none, none, some 5]

/-- Witness for the amended C4 theorem in the many-unparseable case. -/
theorem c4_timeline_repair_amended_witness :
    Analyze.parseTimestampSeries c4WitTs =
      (List.range c4WitTs.length).map (fun i : ℕ => some ((0 : ℚ) + (i : ℚ))) ∧
    Analyze.strictTimeline (Analyze.parseTimestampSeries c4WitTs) :=
  (c4_timeline_repair_amended c4WitTs).1 (by decide)

/-- Input of the C4 counterexample: all entries parse, exactly 20 percent of
the sorted consecutive differences are zero (not more), and the median
difference is 10 — so the series is returned unchanged, yet it contains a
duplicate timestamp and is therefore not strictly time-ordered. -/
def c4CexTs : List (Option ℚ) :=
  [some 0, some 0, some 10, some 20, some 30, some 40]

/-- C4 counterexample: the repaired output equals the input, which is not a
strictly time-ordered timeline — refuting the claim that the output is
strictly time-ordered in all cases. -/
theorem c4_counterexample :
    Analyze.parseTimestampSeries c4CexTs = c4CexTs ∧
    ¬ Analyze.strictTimeline c4CexTs := by
  constructor
  · unfold Analyze.parseTimestampSeries
    rw [if_neg (by decide), if_neg ?hc]
    case hc =>
      unfold Analyze.coarseTimestamps Analyze.diffsOf Analyze.medianQ
      norm_num [Analyze.sortQ, Analyze.validVals, c4CexTs, List.insertionSort,
        List.orderedInsert]
  · rintro ⟨-, hp⟩
    have h0 : Analyze.optLtQb (some 0) (some 0) = true := by
      have := (List.pairwise_cons.mp hp).1 (some 0) (by simp [c4CexTs])
      exact this
    simp only [Analyze.optLtQb, decide_eq_true_eq] at h0
    exact lt_irrefl 0 h0

namespace Analyze

/-- `max_retries` default of `add_elevation_column`. -/
def MAX_RETRIES : Nat := 3

/-- Banker's rounding of a rational to an integer (`round` / `Series.round`
semantics: ties to even). -/
def roundHalfEven (q : ℚ) : ℤ :=
  if q - ⌊q⌋ < 1 / 2 then ⌊q⌋
  else if (1 : ℚ) / 2 < q - ⌊q⌋ then ⌊q⌋ + 1
  else if ⌊q⌋ % 2 = 0 then ⌊q⌋ else ⌊q⌋ + 1

/-- `.round(round_decimals)`. -/
def roundTo (d : Nat) (q : ℚ) : ℚ := (roundHalfEven (q * 10 ^ d) : ℚ) / 10 ^ d

/-- The rounded-coordinate cache key `(lat_r, lon_r)`. -/
def roundKey (d : Nat) (p : ℚ × ℚ) : ℚ × ℚ := (roundTo d p.1, roundTo d p.2)

/-- The elevation cache: rounded key to elevation, `nan` marking a lookup
that exhausted its retries. -/
def ElevCache : Type := List ((ℚ × ℚ) × FV ℚ)

/-- Dictionary lookup in the cache (later insertions shadow earlier
ones). -/
def cacheFind : ElevCache → (ℚ × ℚ) → Option (FV ℚ)
  | [], _ => none
  | (k, v) :: rest, key => if key = k then some v else cacheFind rest key

/-- One logged external query: which rounded key, which attempt number. -/
structure QEntry where
  key : ℚ × ℚ
  attempt : Nat
deriving DecidableEq

/-- The backoff slept after a failed attempt: `time.sleep(0.4 * attempt)`
seconds. -/
def backoffOf (attempt : Nat) : ℚ := 2 / 5 * attempt

/-- The retry loop for one coordinate (`for attempt in range(1,
max_retries + 1)`): try the attempts in order, stop at the first success,
log every attempt made. -/
def attemptKey (svc : (ℚ × ℚ) → Nat → Option ℚ) (k : ℚ × ℚ) :
    List Nat → Option ℚ × List Nat
  | [] => (none, [])
  | a :: rest =>
      match svc k a with
      | some e => (some e, [a])
      | none =>
          let r := attemptKey svc k rest
          (r.1, a :: r.2)

/-- Resolve the missing keys in order: per key up to `MAX_RETRIES` attempts,
then store the fetched value — or the NaN sentinel on exhaustion — in the
cache. -/
def resolveMissing (svc : (ℚ × ℚ) → Nat → Option ℚ) :
    List (ℚ × ℚ) → ElevCache → ElevCache × List QEntry
  | [], cache => (cache, [])
  | k :: ks, cache =>
      let r := attemptKey svc k (List.range' 1 MAX_RETRIES)
      let v : FV ℚ := match r.1 with
        | some e => FV.val e
        | none => FV.nan
      let rest := resolveMissing svc ks ((k, v) :: cache)
      (rest.1, (r.2.map (fun a => ⟨k, a⟩)) ++ rest.2)

/-- The resolution core of `add_elevation_column`: round the coordinates,
deduplicate keeping first occurrences, split into cached and missing keys,
resolve the missing keys with bounded retries (the external service `svc`
may fail on any call — an exception is `none`), then assign every input row
the cache entry of its rounded key (`elev_map.get(..., np.nan)`).  Returns
the final cache, the per-row elevation column, and the query log. -/
def addElevationColumn (svc : (ℚ × ℚ) → Nat → Option ℚ) (roundDecimals : Nat)
    (cache₀ : ElevCache) (coords : List (ℚ × ℚ)) :
    ElevCache × List (FV ℚ) × List QEntry :=
  let rkeys := coords.map (roundKey roundDecimals)
  let uniq := uniqFirst rkeys
  let missing := uniq.filter (fun k => (cacheFind cache₀ k).isNone)
  let r := resolveMissing svc missing cache₀
  (r.1, rkeys.map (fun k => (cacheFind r.1 k).getD FV.nan), r.2)

theorem attemptKey_range' (svc : (ℚ × ℚ) → Nat → Option ℚ) (k : ℚ × ℚ) :
    ∀ (n s : Nat), ∃ j ≤ n, (attemptKey svc k (List.range' s n)).2 = List.range' s j := by
  intro n
  induction n with
  | zero => exact fun s => ⟨0, le_refl 0, rfl⟩
  | succ n ih =>
      intro s
      show ∃ j ≤ n + 1, (attemptKey svc k (s :: List.range' (s + 1) n)).2 = _
      cases hs : svc k s with
      | some e =>
          refine ⟨1, by omega, ?_⟩
          simp [attemptKey, hs, List.range']
      | none =>
          obtain ⟨j, hj, hr⟩ := ih (s + 1)
          refine ⟨j + 1, by omega, ?_⟩
          simp only [attemptKey, hs]
          rw [hr]
          rfl

theorem attemptKey_all_fail (svc : (ℚ × ℚ) → Nat → Option ℚ) (k : ℚ × ℚ)
    (as : List Nat) (h : ∀ a ∈ as, svc k a = none) :
    attemptKey svc k as = (none, as) := by
  induction as with
  | nil => rfl
  | cons a rest ih =>
      have ha : svc k a = none := h a (List.mem_cons_self a rest)
      simp only [attemptKey, ha]
      rw [ih (fun a' h' => h a' (List.mem_cons_of_mem a h'))]

theorem resolveMissing_log_not_mem (svc : (ℚ × ℚ) → Nat → Option ℚ)
    (ks : List (ℚ × ℚ)) :
    ∀ (cache : ElevCache) (k : ℚ × ℚ), k ∉ ks →
      (resolveMissing svc ks cache).2.filter (fun e => decide (e.key = k)) = [] := by
  induction ks with
  | nil => intro cache k _; rfl
  | cons k' ks ih =>
      intro cache k hk
      have hne : k' ≠ k := fun he => hk (he ▸ List.mem_cons_self k' ks)
      simp only [resolveMissing, List.filter_append]
      rw [ih _ k (fun hm => hk (List.mem_cons_of_mem k' hm))]
      rw [List.filter_eq_nil_iff.mpr, List.nil_append]
      intro e he
      rw [List.mem_map] at he
      obtain ⟨a, -, ha⟩ := he
      rw [← ha]
      simp only [decide_eq_true_eq]
      exact fun hh => hne hh

theorem resolveMissing_log_mem (svc : (ℚ × ℚ) → Nat → Option ℚ)
    (ks : List (ℚ × ℚ)) :
    ∀ (cache : ElevCache) (k : ℚ × ℚ), ks.Nodup → k ∈ ks →
      ((resolveMissing svc ks cache).2.filter
        (fun e => decide (e.key = k))).map (fun e => e.attempt) =
      (attemptKey svc k (List.range' 1 MAX_RETRIES)).2 := by
  induction ks with
  | nil => intro cache k _ hk; cases hk
  | cons k' ks ih =>
      intro cache k hnd hk
      simp only [resolveMissing, List.filter_append, List.map_append]
      rcases List.mem_cons.mp hk with rfl | hk'
      · rw [resolveMissing_log_not_mem svc ks _ k (List.nodup_cons.mp hnd).1]
        simp only [List.map_nil, List.append_nil]
        rw [List.map_filter]
        have hall : (List.filter ((fun e : QEntry => decide (e.key = k)) ∘
            (fun a => (⟨k, a⟩ : QEntry)))
            ((attemptKey svc k (List.range' 1 MAX_RETRIES)).2)) =
            (attemptKey svc k (List.range' 1 MAX_RETRIES)).2 := by
          apply List.filter_eq_self.mpr
          intro a _
          simp
        rw [hall, List.map_map]
        have hid : ((fun e : QEntry => e.attempt) ∘
            (fun a => (⟨k, a⟩ : QEntry))) = id := rfl
        rw [hid, List.map_id]
      · have hne : k' ≠ k := fun he => (List.nodup_cons.mp hnd).1 (he ▸ hk')
        have hnil : (((attemptKey svc k' (List.range' 1 MAX_RETRIES)).2.map
            (fun a => (⟨k', a⟩ : QEntry))).filter
            (fun e => decide (e.key = k))) = [] := by
          apply List.filter_eq_nil_iff.mpr
          intro e he
          rw [List.mem_map] at he
          obtain ⟨a, -, ha⟩ := he
          rw [← ha]
          simp only [decide_eq_true_eq]
          exact fun hh => hne hh
        rw [hnil]
        simp only [List.map_nil, List.nil_append]
        exact ih _ k (List.nodup_cons.mp hnd).2 hk'

theorem cacheFind_cons_ne (cache : ElevCache) (k' k : ℚ × ℚ) (v : FV ℚ)
    (h : k ≠ k') :
    cacheFind ((k', v) :: cache) k = cacheFind cache k := by
  simp only [cacheFind]
  rw [if_neg h]

theorem resolveMissing_cache_not_mem (svc : (ℚ × ℚ) → Nat → Option ℚ)
    (ks : List (ℚ × ℚ)) :
    ∀ (cache : ElevCache) (k : ℚ × ℚ), k ∉ ks →
      cacheFind (resolveMissing svc ks cache).1 k = cacheFind cache k := by
  induction ks with
  | nil => intro cache k _; rfl
  | cons k' ks ih =>
      intro cache k hk
      have hne : k ≠ k' := fun he => hk (he ▸ List.mem_cons_self k' ks)
      simp only [resolveMissing]
      rw [ih _ k (fun hm => hk (List.mem_cons_of_mem k' hm)),
        cacheFind_cons_ne _ _ _ _ hne]

theorem resolveMissing_cache_mem (svc : (ℚ × ℚ) → Nat → Option ℚ)
    (ks : List (ℚ × ℚ)) :
    ∀ (cache : ElevCache) (k : ℚ × ℚ), ks.Nodup → k ∈ ks →
      cacheFind (resolveMissing svc ks cache).1 k =
        some (match (attemptKey svc k (List.range' 1 MAX_RETRIES)).1 with
          | some e => FV.val e
          | none => FV.nan) := by
  induction ks with
  | nil => intro cache k _ hk; cases hk
  | cons k' ks ih =>
      intro cache k hnd hk
      simp only [resolveMissing]
      rcases List.mem_cons.mp hk with rfl | hk'
      · rw [resolveMissing_cache_not_mem svc ks _ k (List.nodup_cons.mp hnd).1]
        simp [cacheFind]
      · exact ih _ k (List.nodup_cons.mp hnd).2 hk'

end Analyze

namespace Analyze

theorem addElevationColumn_log (svc : (ℚ × ℚ) → Nat → Option ℚ) (d : Nat)
    (cache₀ : ElevCache) (coords : List (ℚ × ℚ)) :
    (addElevationColumn svc d cache₀ coords).2.2 =
      (resolveMissing svc
        ((uniqFirst (coords.map (roundKey d))).filter
          (fun k => (cacheFind cache₀ k).isNone)) cache₀).2 := rfl

theorem addElevationColumn_cache (svc : (ℚ × ℚ) → Nat → Option ℚ) (d : Nat)
    (cache₀ : ElevCache) (coords : List (ℚ × ℚ)) :
    (addElevationColumn svc d cache₀ coords).1 =
      (resolveMissing svc
        ((uniqFirst (coords.map (roundKey d))).filter
          (fun k => (cacheFind cache₀ k).isNone)) cache₀).1 := rfl

theorem addElevationColumn_assign (svc : (ℚ × ℚ) → Nat → Option ℚ) (d : Nat)
    (cache₀ : ElevCache) (coords : List (ℚ × ℚ)) :
    (addElevationColumn svc d cache₀ coords).2.1 =
      (coords.map (roundKey d)).map (fun k =>
        (cacheFind (addElevationColumn svc d cache₀ coords).1 k).getD FV.nan) := rfl

theorem pairwise_lt_range' (s n : Nat) :
    List.Pairwise (fun a b => a < b) (List.range' s n) := by
  induction n generalizing s with
  | zero => exact List.Pairwise.nil
  | succ n ih =>
      rw [show List.range' s (n + 1) = s :: List.range' (s + 1) n from rfl]
      refine List.Pairwise.cons ?_ (ih (s + 1))
      intro b hb
      have := List.mem_range'_1.mp hb
      omega

end Analyze

/-- C8: in the elevation resolver, (1) every input coordinate receives an
assignment (no service failure escapes the resolver); (2) each rounded key's
logged external queries form one single consecutive run of attempts
`1..j` with `j ≤ MAX_RETRIES` — so coordinates identical after rounding
share that one run, each key is tried at most `MAX_RETRIES` times, and is
never queried again within the batch after its run; (3) the backoff slept
between a key's attempts is strictly increasing; (4) keys already cached are
never queried; (5) an uncached key whose first attempt succeeds is queried
exactly once no matter how many input coordinates round to it; and (6) a key
failing all retries gets the NaN sentinel in the cache and NaN assignments,
and is still assigned (never an error). -/
theorem c8_elevation_resolver (svc : (ℚ × ℚ) → Nat → Option ℚ) (d : Nat)
    (cache₀ : Analyze.ElevCache) (coords : List (ℚ × ℚ)) :
    (Analyze.addElevationColumn svc d cache₀ coords).2.1.length = coords.length ∧
    (∀ k : ℚ × ℚ, ∃ j ≤ Analyze.MAX_RETRIES,
      (((Analyze.addElevationColumn svc d cache₀ coords).2.2.filter
        (fun e => decide (e.key = k))).map (fun e => e.attempt)) = List.range' 1 j) ∧
    (∀ k : ℚ × ℚ, List.Pairwise (fun a b => Analyze.backoffOf a < Analyze.backoffOf b)
      (((Analyze.addElevationColumn svc d cache₀ coords).2.2.filter
        (fun e => decide (e.key = k))).map (fun e => e.attempt))) ∧
    (∀ k : ℚ × ℚ, (Analyze.cacheFind cache₀ k).isSome = true →
      (Analyze.addElevationColumn svc d cache₀ coords).2.2.filter
        (fun e => decide (e.key = k)) = []) ∧
    (∀ c ∈ coords, Analyze.cacheFind cache₀ (Analyze.roundKey d c) = none →
      svc (Analyze.roundKey d c) 1 ≠ none →
      ((Analyze.addElevationColumn svc d cache₀ coords).2.2.filter
        (fun e => decide (e.key = Analyze.roundKey d c))).length = 1) ∧
    (∀ (i : Nat) (c : ℚ × ℚ), coords[i]? = some c →
      (∀ a, 1 ≤ a → a ≤ Analyze.MAX_RETRIES → svc (Analyze.roundKey d c) a = none) →
      Analyze.cacheFind cache₀ (Analyze.roundKey d c) = none →
      Analyze.cacheFind (Analyze.addElevationColumn svc d cache₀ coords).1
        (Analyze.roundKey d c) = some Analyze.FV.nan ∧
      (Analyze.addElevationColumn svc d cache₀ coords).2.1[i]? =
        some Analyze.FV.nan) := by
  have hnodupM : (((Analyze.uniqFirst (coords.map (Analyze.roundKey d))).filter
      (fun k => (Analyze.cacheFind cache₀ k).isNone))).Nodup :=
    List.Nodup.filter _ (Analyze.uniqFirst_nodup _)
  have hmemM : ∀ k : ℚ × ℚ, Analyze.cacheFind cache₀ k = none →
      k ∈ coords.map (Analyze.roundKey d) →
      k ∈ ((Analyze.uniqFirst (coords.map (Analyze.roundKey d))).filter
        (fun k => (Analyze.cacheFind cache₀ k).isNone)) := by
    intro k hnone hmem
    apply List.mem_filter.mpr
    refine ⟨(Analyze.uniqFirst_mem _ _).mpr hmem, ?_⟩
    rw [hnone]
    rfl
  have h2 : ∀ k : ℚ × ℚ, ∃ j ≤ Analyze.MAX_RETRIES,
      (((Analyze.addElevationColumn svc d cache₀ coords).2.2.filter
        (fun e => decide (e.key = k))).map (fun e => e.attempt)) = List.range' 1 j := by
    intro k
    rw [Analyze.addElevationColumn_log]
    by_cases hk : k ∈ ((Analyze.uniqFirst (coords.map (Analyze.roundKey d))).filter
        (fun k => (Analyze.cacheFind cache₀ k).isNone))
    · rw [Analyze.resolveMissing_log_mem svc _ cache₀ k hnodupM hk]
      exact Analyze.attemptKey_range' svc k Analyze.MAX_RETRIES 1
    · rw [Analyze.resolveMissing_log_not_mem svc _ cache₀ k hk]
      exact ⟨0, Nat.zero_le _, rfl⟩
  refine ⟨?_, h2, ?_, ?_, ?_, ?_⟩
  · rw [Analyze.addElevationColumn_assign]
    simp
  · intro k
    obtain ⟨j, hj, hatts⟩ := h2 k
    rw [hatts]
    refine List.Pairwise.imp ?_ (Analyze.pairwise_lt_range' 1 j)
    intro a b hab
    unfold Analyze.backoffOf
    have hc : (a : ℚ) < (b : ℚ) := Nat.cast_lt.mpr hab
    have hp : (0 : ℚ) < 2 / 5 := by norm_num
    exact mul_lt_mul_of_pos_left hc hp
  · intro k hk
    rw [Analyze.addElevationColumn_log]
    apply Analyze.resolveMissing_log_not_mem
    intro hkm
    have hp := (List.mem_filter.mp hkm).2
    obtain ⟨v, hv⟩ := Option.isSome_iff_exists.mp hk
    rw [hv] at hp
    simp at hp
  · intro c hc hcache hsvc
    obtain ⟨v, hv⟩ := Option.ne_none_iff_exists'.mp hsvc
    have hkm := hmemM (Analyze.roundKey d c) hcache
      (List.mem_map_of_mem (Analyze.roundKey d) hc)
    have hlog := Analyze.resolveMissing_log_mem svc _ cache₀
      (Analyze.roundKey d c) hnodupM hkm
    have hatts : (Analyze.attemptKey svc (Analyze.roundKey d c)
        (List.range' 1 Analyze.MAX_RETRIES)).2 = [1] := by
      rw [show List.range' 1 Analyze.MAX_RETRIES = 1 :: List.range' 2 2 from rfl]
      simp [Analyze.attemptKey, hv]
    rw [← List.length_map _ (fun e : Analyze.QEntry => e.attempt),
      Analyze.addElevationColumn_log, hlog, hatts]
    rfl
  · intro i c hic hfail hcache
    have hc : c ∈ coords := List.getElem?_mem hic
    have hkm := hmemM (Analyze.roundKey d c) hcache
      (List.mem_map_of_mem (Analyze.roundKey d) hc)
    have hM : Analyze.MAX_RETRIES = 3 := rfl
    have hallfail : ∀ a ∈ List.range' 1 Analyze.MAX_RETRIES,
        svc (Analyze.roundKey d c) a = none := by
      intro a ha
      have hb := List.mem_range'_1.mp ha
      exact hfail a (by omega) (by omega)
    have hak := Analyze.attemptKey_all_fail svc (Analyze.roundKey d c)
      (List.range' 1 Analyze.MAX_RETRIES) hallfail
    have hcfind : Analyze.cacheFind
        (Analyze.addElevationColumn svc d cache₀ coords).1
        (Analyze.roundKey d c) = some Analyze.FV.nan := by
      rw [Analyze.addElevationColumn_cache,
        Analyze.resolveMissing_cache_mem svc _ cache₀ _ hnodupM hkm, hak]
    refine ⟨hcfind, ?_⟩
    rw [Analyze.addElevationColumn_assign]
    rw [List.getElem?_map, List.getElem?_map, hic]
    simp only [Option.map_some']
    rw [hcfind]
    rfl

/-- The always-failing elevation service of the C8 witness. -/
def c8Svc : (ℚ × ℚ) → Nat → Option ℚ := fun _ _ => none

/-- Witness for C8: with an unreachable service, the single coordinate is
assigned the NaN sentinel and the sentinel is cached. -/
theorem c8_elevation_resolver_witness :
    Analyze.cacheFind (Analyze.addElevationColumn c8Svc 5 [] [(1, 2)]).1
      (Analyze.roundKey 5 (1, 2)) = some Analyze.FV.nan ∧
    (Analyze.addElevationColumn c8Svc 5 [] [(1, 2)]).2.1[0]? =
      some Analyze.FV.nan :=
  (c8_elevation_resolver c8Svc 5 [] [(1, 2)]).2.2.2.2.2 0 (1, 2) rfl
    (fun _ _ _ => rfl) rfl
